import Mathlib

/-!
Verification development for the meeple simulation core of this repository
(the most evolved variant, `src/meeples/main3.py`).  The definitions below are
a shallow embedding of the simulation's data model and operations: Python
floats are modelled as exact rationals, pygame integer rectangles as integer
records, and the pygame event loop's mutations as pure state-passing
functions.  Randomness (`random.shuffle`, `random.uniform`) is modelled by
universally quantified parameters (the shuffled order, the jitter point).
-/

namespace Meeples

/-! ### Constants (main3.py lines 35-91) -/

def HUT_MAX_RESIDENTS : Nat := 4

def MIN_SPEED_MULT : ℚ := 1/5  -- 0.2

def MAX_SPEED_MULT : ℚ := 5  -- 5.0

def SPEED_CHANGE_STEP : ℚ := 1/5  -- 0.2

def RAIN_DURATION : ℚ := 10

def RAIN_SPEED_MULTIPLIER : ℚ := 3/5  -- 0.6

def HOLE_RADIUS : ℤ := 30

def COLLISION_PUSH_FORCE : ℚ := 1  -- 1.0

def OBSTACLE_PUSH_FORCE : ℚ := 3/2  -- 1.5

def HOME_PROXIMITY_THRESHOLD : ℚ := 15

def DAY_DURATION_SECONDS : ℚ := 30

def NIGHT_DURATION_SECONDS : ℚ := 20

def FULL_CYCLE_SECONDS : ℚ := DAY_DURATION_SECONDS + NIGHT_DURATION_SECONDS

def BODY_RADIUS : ℚ := 8

def HUT_BASE_W : ℤ := 50

def HUT_BASE_H : ℤ := 30

def HUT_ROOF_HEIGHT : ℤ := 30

def FARM_W : ℤ := 100

def FARM_H : ℤ := 70

def FACTORY_W : ℤ := 70

def FACTORY_H : ℤ := 50

def FACTORY_CHIMNEY_W : ℤ := 8

def FACTORY_CHIMNEY_H : ℤ := 30

def TREE_TRUNK_WIDTH : ℤ := 6

/-- push_scale, main3.py line 530 -/
def PUSH_SCALE : ℚ := 1  -- 1.0

/-! ### pygame integer rectangles

`pygame.Rect` stores integer left/top/width/height; float constructor
arguments are truncated toward zero.  `colliderect` is a strict overlap test.
-/

structure PyRect where
  left : ℤ
  top : ℤ
  w : ℤ
  h : ℤ
deriving DecidableEq

def PyRect.rightEdge (r : PyRect) : ℤ := r.left + r.w

def PyRect.bottomEdge (r : PyRect) : ℤ := r.top + r.h

def PyRect.centerx (r : PyRect) : ℤ := r.left + r.w / 2

def PyRect.centery (r : PyRect) : ℤ := r.top + r.h / 2

def colliderect (a b : PyRect) : Bool :=
  a.left < b.rightEdge && a.rightEdge > b.left &&
  a.top < b.bottomEdge && a.bottomEdge > b.top

/-- Truncation toward zero, as the C-level float-to-int conversion used by
pygame.Rect. -/
def truncZ (q : ℚ) : ℤ := if 0 ≤ q then ⌊q⌋ else ⌈q⌉

/-! ### World data model (membership aspect)

Meeple identity (Python object identity) is modelled by a numeric id.
`MeepleRec.home` is the `Meeple.home` back-reference (a hut id);
`HutRec.residents` is the `Hut.residents` list (main3.py lines 315-317),
which holds meeple ids.
-/

structure MeepleRec where
  id : Nat
  x : ℚ
  y : ℚ
  home : Option Nat
deriving DecidableEq

structure HutRec where
  id : Nat
  cx : ℤ
  cy : ℤ
  residents : List Nat
  max_residents : Nat
deriving DecidableEq

inductive PlaceableRec where
  | hole (x y : ℤ)
  | hut (h : HutRec)
  | farm (x y : ℤ)
  | factory (x y : ℤ)
  | tree (x y : ℤ)
deriving DecidableEq

/-- `Hut.rect` (main3.py lines 300-302). -/
def hutBaseRect (cx cy : ℤ) : PyRect :=
  ⟨cx - HUT_BASE_W / 2, cy - HUT_BASE_H / 2, HUT_BASE_W, HUT_BASE_H⟩

/-- The `collision_rect` of each Placeable kind, as built by the
constructors in main3.py (Hole line 287, Hut lines 304-307, Farm lines
363-366, Factory lines 380-396, Tree lines 422-423). -/
def collisionRect : PlaceableRec → PyRect
  | .hole x y => ⟨x - HOLE_RADIUS, y - HOLE_RADIUS, HOLE_RADIUS * 2, HOLE_RADIUS * 2⟩
  | .hut h =>
      let base := hutBaseRect h.cx h.cy
      ⟨base.left, base.top - HUT_ROOF_HEIGHT, HUT_BASE_W, HUT_BASE_H + HUT_ROOF_HEIGHT⟩
  | .farm x y => ⟨x - FARM_W / 2, y - FARM_H / 2, FARM_W, FARM_H⟩
  | .factory x y =>
      let base : PyRect := ⟨x - FACTORY_W / 2, y - FACTORY_H / 2, FACTORY_W, FACTORY_H⟩
      let chimney : PyRect :=
        ⟨base.rightEdge - FACTORY_CHIMNEY_W - 5, base.top - FACTORY_CHIMNEY_H,
          FACTORY_CHIMNEY_W, FACTORY_CHIMNEY_H⟩
      let l := min base.left chimney.left
      let t := min base.top chimney.top
      ⟨l, t, max base.rightEdge chimney.rightEdge - l,
        max base.bottomEdge chimney.bottomEdge - t⟩
  | .tree x y =>
      let cr := TREE_TRUNK_WIDTH / 2
      ⟨x - cr, y - cr, cr * 2, cr * 2⟩

structure World where
  meeples : List MeepleRec
  placeables : List PlaceableRec
deriving DecidableEq

/-! ### Operations on the world -/

def toHutWithId (hid : Nat) : PlaceableRec → Option HutRec
  | .hut h => if h.id = hid then some h else none
  | _ => none

/-- Resolves a hut id to the hut object it denotes (first match), the
embedding of a Python object reference to a `Hut`. -/
def lookupHut (ps : List PlaceableRec) (hid : Nat) : Option HutRec :=
  ps.findSome? (toHutWithId hid)

def updHut (hid : Nat) (f : HutRec → HutRec) : PlaceableRec → PlaceableRec
  | .hut h => if h.id = hid then .hut (f h) else .hut h
  | p => p

/-- `Meeple.assign_home` (main3.py lines 153-159): if the hut still has
capacity, set the meeple's back-reference and append it to the hut's
resident list; otherwise return False and change nothing. -/
def assign_home (w : World) (mid hid : Nat) : World × Bool :=
  match lookupHut w.placeables hid with
  | none => (w, false)
  | some h =>
    if h.residents.length < h.max_residents then
      ({ meeples := w.meeples.map fun m =>
           if m.id = mid then { m with home := some hid } else m,
         placeables := w.placeables.map
           (updHut hid fun h0 => { h0 with residents := h0.residents ++ [mid] }) },
       true)
    else (w, false)

/-- The resident-assignment loop after a successful Hut placement
(main3.py lines 710-718): iterate the shuffled homeless meeples, counting
successes, breaking once `HUT_MAX_RESIDENTS` have been assigned. -/
def assignLoop (hid : Nat) : World → List Nat → Nat → World
  | w, [], _ => w
  | w, mid :: rest, count =>
    let res := assign_home w mid hid
    if res.2 then
      if count + 1 ≥ HUT_MAX_RESIDENTS then res.1
      else assignLoop hid res.1 rest (count + 1)
    else assignLoop hid res.1 rest count

inductive ToolKind where
  | hole
  | hut
  | farm
  | factory
  | tree
deriving DecidableEq

/-- Candidate construction for a simulation-area click (main3.py lines
675-679); a fresh Hut starts with no residents and capacity
`HUT_MAX_RESIDENTS` (lines 316-317). -/
def mkPlaceable (k : ToolKind) (x y : ℤ) (hid : Nat) : PlaceableRec :=
  match k with
  | .hole => .hole x y
  | .hut => .hut ⟨hid, x, y, [], HUT_MAX_RESIDENTS⟩
  | .farm => .farm x y
  | .factory => .factory x y
  | .tree => .tree x y

/-- Placement with overlap validation (main3.py lines 696-722): reject if
the candidate's collision rect collides with any existing placeable's,
otherwise append it and, for a Hut, run the resident-assignment loop.
`order` is the outcome of `random.shuffle` over the homeless meeples. -/
def tryPlace (w : World) (k : ToolKind) (x y : ℤ) (hid : Nat) (order : List Nat) :
    World × Bool :=
  let cand := mkPlaceable k x y hid
  if w.placeables.any fun p => colliderect (collisionRect cand) (collisionRect p) then
    (w, false)
  else
    let w1 : World := { w with placeables := w.placeables ++ [cand] }
    match k with
    | .hut => (assignLoop hid w1 order 0, true)
    | _ => (w1, true)

/-- The homeless pool scanned on Hut placement (main3.py line 712). -/
def homelessIds (w : World) : List Nat :=
  (w.meeples.filter fun m => m.home.isNone).map MeepleRec.id

/-- The add_meeple tool (main3.py lines 686-693): reject when a 2x2 probe
rect at the click point collides with an existing placeable. -/
def addMeeple (w : World) (mx my : ℤ) (mid : Nat) : World :=
  let temp : PyRect := ⟨mx - 1, my - 1, 2, 2⟩
  if w.placeables.any fun p => colliderect (collisionRect p) temp then w
  else { w with meeples := w.meeples ++ [⟨mid, (mx : ℚ), (my : ℚ), none⟩] }

/-- One marked meeple's excision from its home's resident list
(main3.py lines 599-601): if it has a home and occurs in that hut's
resident list, remove the first occurrence. -/
def removeResOne (m : MeepleRec) (p : PlaceableRec) : PlaceableRec :=
  match m.home with
  | none => p
  | some hid => updHut hid (fun h => { h with residents := h.residents.erase m.id }) p

def removeFromHome (ps : List PlaceableRec) (m : MeepleRec) : List PlaceableRec :=
  ps.map (removeResOne m)

/-- The deferred removal batch at the end of `handle_collisions`
(main3.py lines 596-603): excise every marked meeple from its home's
resident list, then rebuild the meeple list without the marked ones. -/
def removalBatch (w : World) (marked : List MeepleRec) : World :=
  { meeples := w.meeples.filter fun m => !(marked.any fun m2 => m2.id == m.id),
    placeables := marked.foldl removeFromHome w.placeables }

/-- Proof artifact: the per-placeable view of the removal fold. -/
def removeAllRes (marked : List MeepleRec) (p : PlaceableRec) : PlaceableRec :=
  marked.foldl (fun p m => removeResOne m p) p

/-- Proof artifact: the per-hut view of one marked meeple's excision. -/
def hutErase (m : MeepleRec) (h : HutRec) : HutRec :=
  match m.home with
  | none => h
  | some hid => if h.id = hid then { h with residents := h.residents.erase m.id } else h

/-- Proof artifact: the per-hut view of the removal fold. -/
def hutEraseAll (marked : List MeepleRec) (h : HutRec) : HutRec :=
  marked.foldl (fun h m => hutErase m h) h

/-! ### Step relation

One step is one world-mutating operation of the game loop.  The side
conditions record what the loop guarantees at each call site: a placement
uses a fresh hut object and a shuffle of the homeless pool (lines 708-713),
a new meeple is a fresh object (line 687), and the removal batch is built
from the live meeple list without duplicates (lines 588-593).
-/

inductive Step : World → World → Prop
  | place (w : World) (k : ToolKind) (x y : ℤ) (hid : Nat) (order : List Nat)
      (hfresh : lookupHut w.placeables hid = none)
      (hhomeless : ∀ mid ∈ order, ∃ m ∈ w.meeples, m.id = mid ∧ m.home = none)
      (hnodup : order.Nodup) :
      Step w (tryPlace w k x y hid order).1
  | addM (w : World) (mx my : ℤ) (mid : Nat)
      (hfresh : ∀ m ∈ w.meeples, m.id ≠ mid) :
      Step w (addMeeple w mx my mid)
  | hazardRemoval (w : World) (marked : List MeepleRec)
      (hsub : ∀ m ∈ marked, m ∈ w.meeples)
      (hnodup : (marked.map MeepleRec.id).Nodup) :
      Step w (removalBatch w marked)

def Reach (w0 w : World) : Prop := Relation.ReflTransGen Step w0 w

/-- A startup world: the initial spawn seeds homeless meeples and no
placeables (main3.py lines 624-631, 460-461). -/
def InitOk (w : World) : Prop :=
  (w.meeples.map MeepleRec.id).Nodup ∧
  (∀ m ∈ w.meeples, m.home = none) ∧ w.placeables = []

def hutIdOf : PlaceableRec → Option Nat
  | .hut h => some h.id
  | _ => none

def hutIds (ps : List PlaceableRec) : List Nat :=
  ps.filterMap hutIdOf

/-- Per-hut well-formedness used as the inductive invariant. -/
def HutOk (meeps : List MeepleRec) : PlaceableRec → Prop
  | .hut h =>
      h.residents.Nodup ∧ h.residents.length ≤ h.max_residents ∧
      h.max_residents = HUT_MAX_RESIDENTS ∧
      ∀ mid ∈ h.residents, ∃ m ∈ meeps, m.id = mid ∧ m.home = some h.id
  | _ => True

def Inv (w : World) : Prop :=
  (w.meeples.map MeepleRec.id).Nodup ∧
  (hutIds w.placeables).Nodup ∧
  ∀ p ∈ w.placeables, HutOk w.meeples p

/-! ### Collision geometry (per-frame positions)

`MState` carries the fields of a `Meeple` read by `handle_collisions`.
`dist` parameters stand for the exact value `math.sqrt`/`math.hypot`
returns in the source; theorems constrain them by `0 ≤ dist` and
`dist ^ 2 = the squared distance`.
-/

structure MState where
  x : ℚ
  y : ℚ
  dx : ℚ
  dy : ℚ
  cr : ℚ
deriving DecidableEq

/-- `meeple_col_rect` (main3.py lines 559-560). -/
def meepleColRect (m : MState) : PyRect :=
  ⟨truncZ (m.x - m.cr), truncZ (m.y - m.cr), truncZ (m.cr * 2), truncZ (m.cr * 2)⟩

/-- A Hole's collision rect (main3.py line 287). -/
def holeCollisionRect (hx hy : ℤ) : PyRect :=
  ⟨hx - HOLE_RADIUS, hy - HOLE_RADIUS, HOLE_RADIUS * 2, HOLE_RADIUS * 2⟩

/-- The body of the meeple-obstacle loop for one meeple against one Hole
(main3.py lines 562-593): the rect-overlap push away from the rect center
with velocity damping, followed by the hole-consumption check which marks
the meeple for deferred removal. -/
def meepleHoleStep (m : MState) (marked : Bool) (hx hy : ℤ) (dist dt : ℚ) :
    MState × Bool :=
  let hrect := holeCollisionRect hx hy
  let m1 :=
    if colliderect (meepleColRect m) hrect then
      let cx : ℚ := (hrect.centerx : ℚ)
      let cy : ℚ := (hrect.centery : ℚ)
      let dx0 := m.x - cx
      let dy0 := m.y - cy
      let dist1 := if dist < 1/100 then 1/100 else dist
      let dx1 := if dist < 1/100 then 1/100 else dx0
      let px := dx1 / dist1 * OBSTACLE_PUSH_FORCE * PUSH_SCALE
      let py := dy0 / dist1 * OBSTACLE_PUSH_FORCE * PUSH_SCALE
      let velx := if 0 < dt then m.dx / dt else 0
      let vely := if 0 < dt then m.dy / dt else 0
      let dot := velx * (dx1 / dist1) + vely * (dy0 / dist1)
      let ndx := if dot < 0 then m.dx - dot * (dx1 / dist1) * dt * (4/5) else m.dx
      let ndy := if dot < 0 then m.dy - dot * (dy0 / dist1) * dt * (4/5) else m.dy
      { x := m.x + px, y := m.y + py, dx := ndx, dy := ndy, cr := m.cr }
    else m
  let consumed : Bool :=
    decide (((m1.x - (hx : ℚ)) ^ 2 + (m1.y - (hy : ℚ)) ^ 2 : ℚ) < ((HOLE_RADIUS : ℚ) * (4/5)) ^ 2)
  (m1, marked || consumed)

/-- The meeple-meeple overlap resolution for one pair (main3.py lines
540-553): overlapping pairs at non-degenerate distance are pushed apart
symmetrically, half the overlap each, scaled by the push-force constant. -/
def resolvePair (m1 m2 : MState) (dist : ℚ) : MState × MState :=
  let dx := m1.x - m2.x
  let dy := m1.y - m2.y
  let distSq := dx ^ 2 + dy ^ 2
  let minDist := m1.cr + m2.cr
  if distSq < minDist ^ 2 ∧ distSq > 1/1000 then
    let overlap := (minDist - dist) / 2
    let px := dx / dist * overlap * COLLISION_PUSH_FORCE * PUSH_SCALE
    let py := dy / dist * overlap * COLLISION_PUSH_FORCE * PUSH_SCALE
    ({ m1 with x := m1.x + px, y := m1.y + py },
     { m2 with x := m2.x - px, y := m2.y - py })
  else (m1, m2)

/-! ### Day/night state machine -/

inductive MPhase where
  | wandering
  | going_home
  | at_home
deriving DecidableEq

structure HutPos where
  cx : ℤ
  cy : ℤ
deriving DecidableEq

/-- `home.rect.center`, the homing anchor (main3.py lines 169, 180). -/
def hutAnchor (h : HutPos) : ℤ × ℤ :=
  ((hutBaseRect h.cx h.cy).centerx, (hutBaseRect h.cx h.cy).centery)

structure MeepleSM where
  x : ℚ
  y : ℚ
  phase : MPhase
  target : Option (ℚ × ℚ)
  home : Option HutPos
deriving DecidableEq

/-- The state-logic section of `Meeple.update` (main3.py lines 167-188).
`jitter` is the outcome of `Hut.get_random_spot_nearby`. -/
def updateStateLogic (m : MeepleSM) (isDay : Bool) (jitter : ℚ × ℚ) : MeepleSM :=
  match m.home with
  | none => m
  | some h =>
    let cx : ℚ := ((hutAnchor h).1 : ℚ)
    let cy : ℚ := ((hutAnchor h).2 : ℚ)
    let near := (m.x - cx) ^ 2 + (m.y - cy) ^ 2 < HOME_PROXIMITY_THRESHOLD ^ 2
    let m1 :=
      if isDay then
        if m.phase = MPhase.at_home then
          { m with phase := MPhase.wandering, target := none }
        else m
      else
        if m.phase = MPhase.wandering then
          { m with phase := MPhase.going_home, target := some (cx, cy) }
        else m
    if m1.phase = MPhase.going_home ∧ near then
      { m1 with phase := MPhase.at_home, target := none, x := jitter.1, y := jitter.2 }
    else m1

/-- Python float modulo (nonnegative modulus). -/
def pymod (a b : ℚ) : ℚ := a - b * (⌊a / b⌋ : ℤ)

/-- The per-frame clock advance (main3.py line 641). -/
def cycleAdvance (t dt mult : ℚ) : ℚ := pymod (t + dt * mult) FULL_CYCLE_SECONDS

/-- `is_daytime` derivation (main3.py line 643). -/
def isDaytimeOf (t : ℚ) : Bool := decide (t < DAY_DURATION_SECONDS)

/-! ### Speed control and rain -/

/-- One speed-control key event (main3.py lines 652-657): add or subtract
the step, then clamp into the legal band. -/
def adjust_speed (s delta : ℚ) : ℚ :=
  max MIN_SPEED_MULT (min (s + delta) MAX_SPEED_MULT)

structure RainState where
  is_raining : Bool
  rain_end_time : ℚ
deriving DecidableEq

/-- The rain tool (main3.py lines 683-685): flip the flag; on activation
arm the expiry timer. -/
def toggleRain (rs : RainState) (now : ℚ) : RainState :=
  if !rs.is_raining then ⟨true, now + RAIN_DURATION⟩
  else ⟨false, rs.rain_end_time⟩

/-- The per-frame effect phase (main3.py lines 728, 732-734): auto-expire
the rain, then set every meeple's `speed_multiplier_effect` from the
post-expiry flag. -/
def rainFrame (rs : RainState) (now : ℚ) (agents : List ℚ) : RainState × List ℚ :=
  let rs' := if rs.is_raining ∧ now > rs.rain_end_time then ⟨false, rs.rain_end_time⟩ else rs
  let speedMod := if rs'.is_raining then RAIN_SPEED_MULTIPLIER else 1
  (rs', agents.map fun _ => speedMod)

/-! ## Theorems -/

/-! ### Supporting lemmas about hut lookup and id-preserving updates -/

theorem toHutWithId_updHut (hid : Nat) (f : HutRec → HutRec)
    (hf : ∀ h, (f h).id = h.id) (p : PlaceableRec) :
    toHutWithId hid (updHut hid f p) = (toHutWithId hid p).map f := by
  cases p with
  | hut h =>
    by_cases hh : h.id = hid
    · simp [updHut, toHutWithId, hh, hf h]
    · simp [updHut, toHutWithId, hh]
  | hole x y => rfl
  | farm x y => rfl
  | factory x y => rfl
  | tree x y => rfl

theorem lookupHut_map_updHut (ps : List PlaceableRec) (hid : Nat) (f : HutRec → HutRec)
    (hf : ∀ h, (f h).id = h.id) :
    lookupHut (ps.map (updHut hid f)) hid = (lookupHut ps hid).map f := by
  induction ps with
  | nil => rfl
  | cons p ps ih =>
    simp only [List.map_cons, lookupHut, List.findSome?_cons] at ih ⊢
    rw [toHutWithId_updHut hid f hf p]
    cases htp : toHutWithId hid p with
    | none => simpa using ih
    | some h => simp

theorem lookupHut_none_iff (ps : List PlaceableRec) (hid : Nat) :
    lookupHut ps hid = none ↔ ∀ h : HutRec, PlaceableRec.hut h ∈ ps → h.id ≠ hid := by
  unfold lookupHut
  rw [List.findSome?_eq_none_iff]
  constructor
  · intro hall h hmem hcon
    have hch := hall _ hmem
    simp [toHutWithId, hcon] at hch
  · intro hall p hp
    cases p with
    | hut h =>
      have hne := hall h hp
      simp [toHutWithId, hne]
    | hole x y => rfl
    | farm x y => rfl
    | factory x y => rfl
    | tree x y => rfl

theorem lookupHut_mem (ps : List PlaceableRec) (hid : Nat) (h : HutRec)
    (hl : lookupHut ps hid = some h) : PlaceableRec.hut h ∈ ps ∧ h.id = hid := by
  induction ps with
  | nil => simp [lookupHut] at hl
  | cons p ps ih =>
    rw [lookupHut, List.findSome?_cons] at hl
    cases htp : toHutWithId hid p with
    | none =>
      rw [htp] at hl
      have hr := ih hl
      exact ⟨List.mem_cons_of_mem _ hr.1, hr.2⟩
    | some h2 =>
      rw [htp] at hl
      simp only [Option.some.injEq] at hl
      subst hl
      cases p with
      | hut h3 =>
        by_cases hh : h3.id = hid
        · simp only [toHutWithId, if_pos hh, Option.some.injEq] at htp
          subst htp
          exact ⟨List.mem_cons_self _ _, hh⟩
        · simp [toHutWithId, hh] at htp
      | hole x y => simp [toHutWithId] at htp
      | farm x y => simp [toHutWithId] at htp
      | factory x y => simp [toHutWithId] at htp
      | tree x y => simp [toHutWithId] at htp

theorem hut_mem_hutIds {h : HutRec} {ps : List PlaceableRec}
    (hmem : PlaceableRec.hut h ∈ ps) : h.id ∈ hutIds ps :=
  List.mem_filterMap.mpr ⟨_, hmem, rfl⟩

theorem hutIds_cons_hut (h : HutRec) (ps : List PlaceableRec) :
    hutIds (PlaceableRec.hut h :: ps) = h.id :: hutIds ps := by
  simp [hutIds, List.filterMap_cons, hutIdOf]

theorem lookupHut_unique (ps : List PlaceableRec) (hid : Nat)
    (hnd : (hutIds ps).Nodup) (h1 h2 : HutRec) (hm : PlaceableRec.hut h1 ∈ ps)
    (hid1 : h1.id = hid) (hl : lookupHut ps hid = some h2) : h1 = h2 := by
  induction ps with
  | nil => simp at hm
  | cons p ps ih =>
    rw [lookupHut, List.findSome?_cons] at hl
    cases p with
    | hut h3 =>
      rw [hutIds_cons_hut] at hnd
      have hnd1 : h3.id ∉ hutIds ps := (List.nodup_cons.mp hnd).1
      have hnd2 : (hutIds ps).Nodup := (List.nodup_cons.mp hnd).2
      by_cases hh : h3.id = hid
      · simp only [toHutWithId, if_pos hh, Option.some.injEq] at hl
        subst hl
        rcases List.mem_cons.mp hm with hme | hme
        · exact (PlaceableRec.hut.injEq _ _).mp hme
        · exfalso
          apply hnd1
          rw [hh, ← hid1]
          exact hut_mem_hutIds hme
      · simp only [toHutWithId, if_neg hh] at hl
        rcases List.mem_cons.mp hm with hme | hme
        · exfalso
          have h13 : h1 = h3 := (PlaceableRec.hut.injEq _ _).mp hme
          rw [h13] at hid1
          exact hh hid1
        · exact ih hnd2 hme hl
    | hole x y =>
      simp only [toHutWithId] at hl
      have hnd2 : (hutIds ps).Nodup := by simpa [hutIds, List.filterMap_cons, hutIdOf] using hnd
      rcases List.mem_cons.mp hm with hme | hme
      · exact absurd hme (by simp)
      · exact ih hnd2 hme hl
    | farm x y =>
      simp only [toHutWithId] at hl
      have hnd2 : (hutIds ps).Nodup := by simpa [hutIds, List.filterMap_cons, hutIdOf] using hnd
      rcases List.mem_cons.mp hm with hme | hme
      · exact absurd hme (by simp)
      · exact ih hnd2 hme hl
    | factory x y =>
      simp only [toHutWithId] at hl
      have hnd2 : (hutIds ps).Nodup := by simpa [hutIds, List.filterMap_cons, hutIdOf] using hnd
      rcases List.mem_cons.mp hm with hme | hme
      · exact absurd hme (by simp)
      · exact ih hnd2 hme hl
    | tree x y =>
      simp only [toHutWithId] at hl
      have hnd2 : (hutIds ps).Nodup := by simpa [hutIds, List.filterMap_cons, hutIdOf] using hnd
      rcases List.mem_cons.mp hm with hme | hme
      · exact absurd hme (by simp)
      · exact ih hnd2 hme hl

theorem hutIdOf_updHut (hid : Nat) (f : HutRec → HutRec) (hf : ∀ h, (f h).id = h.id)
    (p : PlaceableRec) : hutIdOf (updHut hid f p) = hutIdOf p := by
  cases p with
  | hut h =>
    by_cases hh : h.id = hid
    · simp [updHut, hutIdOf, hh, hf h]
    · simp [updHut, hutIdOf, hh]
  | hole x y => rfl
  | farm x y => rfl
  | factory x y => rfl
  | tree x y => rfl

theorem hutIds_map_of_id_preserved (ps : List PlaceableRec)
    (F : PlaceableRec → PlaceableRec) (hF : ∀ p, hutIdOf (F p) = hutIdOf p) :
    hutIds (ps.map F) = hutIds ps := by
  induction ps with
  | nil => rfl
  | cons p ps ih =>
    simp only [hutIds, List.map_cons, List.filterMap_cons] at ih ⊢
    rw [hF p]
    cases hp : hutIdOf p with
    | none => exact ih
    | some i => rw [ih]

theorem map_meeple_ids (l : List MeepleRec) (f : MeepleRec → MeepleRec)
    (hf : ∀ m, (f m).id = m.id) : (l.map f).map MeepleRec.id = l.map MeepleRec.id := by
  induction l with
  | nil => rfl
  | cons m l ih => simp only [List.map_cons, hf m, ih]

theorem meeple_id_inj {l : List MeepleRec} (hnd : (l.map MeepleRec.id).Nodup)
    {a b : MeepleRec} (ha : a ∈ l) (hb : b ∈ l) (hab : a.id = b.id) : a = b :=
  List.inj_on_of_nodup_map hnd ha hb hab

/-! ### Invariant preservation: assign_home and the assignment loop -/

theorem assign_home_keeps_other (w : World) (mid hid : Nat) (m' : MeepleRec)
    (hm' : m' ∈ w.meeples) (hne : m'.id ≠ mid) :
    m' ∈ (assign_home w mid hid).1.meeples := by
  unfold assign_home
  cases lookupHut w.placeables hid with
  | none => exact hm'
  | some h =>
    dsimp only
    by_cases hc : h.residents.length < h.max_residents
    · rw [if_pos hc]
      exact List.mem_map.mpr ⟨m', hm', by simp [hne]⟩
    · rw [if_neg hc]
      exact hm'

theorem assign_home_inv (w : World) (mid hid : Nat) (hw : Inv w)
    (hm : ∃ m ∈ w.meeples, m.id = mid ∧ m.home = none) :
    Inv (assign_home w mid hid).1 := by
  obtain ⟨m0, hm0mem, hm0id, hm0home⟩ := hm
  obtain ⟨hndM, hndH, hok⟩ := hw
  unfold assign_home
  cases hl : lookupHut w.placeables hid with
  | none => exact ⟨hndM, hndH, hok⟩
  | some h =>
    dsimp only
    by_cases hc : h.residents.length < h.max_residents
    · rw [if_pos hc]
      have hgid : ∀ m : MeepleRec,
          ((if m.id = mid then { m with home := some hid } else m) : MeepleRec).id = m.id := by
        intro m
        by_cases hmm : m.id = mid <;> simp [hmm]
      have hfid : ∀ h0 : HutRec,
          (({ h0 with residents := h0.residents ++ [mid] }) : HutRec).id = h0.id :=
        fun _ => rfl
      refine ⟨?_, ?_, ?_⟩
      · rw [map_meeple_ids _ _ hgid]
        exact hndM
      · rw [hutIds_map_of_id_preserved _ _ (hutIdOf_updHut hid _ hfid)]
        exact hndH
      · intro p' hp'
        obtain ⟨p, hp, hpe⟩ := List.mem_map.mp hp'
        subst hpe
        have hokp := hok p hp
        cases p with
        | hut h0 =>
          by_cases hh : h0.id = hid
          · have h0h : h0 = h := lookupHut_unique w.placeables hid hndH h0 h hp hh hl
            obtain ⟨hnd0, hlen0, hmax0, hres0⟩ := hokp
            have hmidnot : mid ∉ h0.residents := by
              intro hin
              obtain ⟨m1, hm1mem, hm1id, hm1home⟩ := hres0 mid hin
              have hm1m0 : m1 = m0 :=
                meeple_id_inj hndM hm1mem hm0mem (by rw [hm1id, hm0id])
              rw [hm1m0, hm0home] at hm1home
              exact Option.noConfusion hm1home
            simp only [updHut, if_pos hh]
            refine ⟨?_, ?_, hmax0, ?_⟩
            · rw [List.nodup_append]
              refine ⟨hnd0, List.nodup_singleton _, ?_⟩
              intro a ha ha2
              rw [List.mem_singleton] at ha2
              subst ha2
              exact hmidnot ha
            · have : h0.residents.length + 1 ≤ h0.max_residents := by
                rw [h0h]
                exact hc
              simpa using this
            · intro mid' hmid'
              rcases List.mem_append.mp hmid' with hold | hnew
              · obtain ⟨m1, hm1mem, hm1id, hm1home⟩ := hres0 mid' hold
                have hne : m1.id ≠ mid := by
                  rw [hm1id]
                  intro hcc
                  rw [hcc] at hold
                  exact hmidnot hold
                refine ⟨m1, List.mem_map.mpr ⟨m1, hm1mem, by simp [hne]⟩, hm1id, ?_⟩
                simpa using hm1home
              · rw [List.mem_singleton] at hnew
                subst hnew
                refine ⟨{ m0 with home := some hid },
                  List.mem_map.mpr ⟨m0, hm0mem, by simp [hm0id]⟩, ?_, ?_⟩
                · simpa using hm0id
                · simp [hh]
          · simp only [updHut, if_neg hh]
            obtain ⟨hnd0, hlen0, hmax0, hres0⟩ := hokp
            refine ⟨hnd0, hlen0, hmax0, ?_⟩
            intro mid' hmid'
            obtain ⟨m1, hm1mem, hm1id, hm1home⟩ := hres0 mid' hmid'
            have hne : m1.id ≠ mid := by
              intro hcc
              have hm1m0 : m1 = m0 := meeple_id_inj hndM hm1mem hm0mem (by rw [hcc, hm0id])
              rw [hm1m0, hm0home] at hm1home
              exact Option.noConfusion hm1home
            exact ⟨m1, List.mem_map.mpr ⟨m1, hm1mem, by simp [hne]⟩, hm1id, hm1home⟩
        | hole x y => exact trivial
        | farm x y => exact trivial
        | factory x y => exact trivial
        | tree x y => exact trivial
    · rw [if_neg hc]
      exact ⟨hndM, hndH, hok⟩

theorem assignLoop_inv (hid : Nat) (order : List Nat) :
    ∀ (w : World) (count : Nat), Inv w → order.Nodup →
      (∀ mid ∈ order, ∃ m ∈ w.meeples, m.id = mid ∧ m.home = none) →
      Inv (assignLoop hid w order count) := by
  induction order with
  | nil => intro w count hw _ _; exact hw
  | cons mid rest ih =>
    intro w count hw hnd hhl
    have hmid : ∃ m ∈ w.meeples, m.id = mid ∧ m.home = none :=
      hhl mid (List.mem_cons_self _ _)
    have hw' : Inv (assign_home w mid hid).1 := assign_home_inv w mid hid hw hmid
    have hrest : ∀ mid' ∈ rest, ∃ m ∈ (assign_home w mid hid).1.meeples,
        m.id = mid' ∧ m.home = none := by
      intro mid' hmem
      obtain ⟨m1, hm1mem, hm1id, hm1home⟩ := hhl mid' (List.mem_cons_of_mem _ hmem)
      have hne : m1.id ≠ mid := by
        rw [hm1id]
        exact fun hcc => (List.nodup_cons.mp hnd).1 (hcc ▸ hmem)
      exact ⟨m1, assign_home_keeps_other w mid hid m1 hm1mem hne, hm1id, hm1home⟩
    have hndr : rest.Nodup := (List.nodup_cons.mp hnd).2
    unfold assignLoop
    by_cases hok2 : (assign_home w mid hid).2 = true
    · rw [if_pos hok2]
      by_cases hcnt : count + 1 ≥ HUT_MAX_RESIDENTS
      · rw [if_pos hcnt]
        exact hw'
      · rw [if_neg hcnt]
        exact ih _ _ hw' hndr hrest
    · rw [if_neg hok2]
      exact ih _ _ hw' hndr hrest

/-! ### Invariant preservation: the removal batch -/

theorem removeResOne_hut (m : MeepleRec) (h : HutRec) :
    removeResOne m (PlaceableRec.hut h) = PlaceableRec.hut (hutErase m h) := by
  unfold removeResOne hutErase
  cases m.home with
  | none => rfl
  | some hid =>
    by_cases hh : h.id = hid
    · simp [updHut, hh]
    · simp [updHut, hh]

theorem removeResOne_hole (m : MeepleRec) (x y : ℤ) :
    removeResOne m (PlaceableRec.hole x y) = PlaceableRec.hole x y := by
  unfold removeResOne
  cases m.home with
  | none => rfl
  | some hid => rfl

theorem removeResOne_farm (m : MeepleRec) (x y : ℤ) :
    removeResOne m (PlaceableRec.farm x y) = PlaceableRec.farm x y := by
  unfold removeResOne
  cases m.home with
  | none => rfl
  | some hid => rfl

theorem removeResOne_factory (m : MeepleRec) (x y : ℤ) :
    removeResOne m (PlaceableRec.factory x y) = PlaceableRec.factory x y := by
  unfold removeResOne
  cases m.home with
  | none => rfl
  | some hid => rfl

theorem removeResOne_tree (m : MeepleRec) (x y : ℤ) :
    removeResOne m (PlaceableRec.tree x y) = PlaceableRec.tree x y := by
  unfold removeResOne
  cases m.home with
  | none => rfl
  | some hid => rfl

theorem removalFold_eq_map (marked : List MeepleRec) :
    ∀ ps : List PlaceableRec,
      marked.foldl removeFromHome ps = ps.map (removeAllRes marked) := by
  induction marked with
  | nil =>
    intro ps
    have h1 : ps.map (removeAllRes []) = ps.map id := List.map_congr_left (fun p _ => rfl)
    rw [h1, List.map_id]
    rfl
  | cons m ms ih =>
    intro ps
    have h1 : (m :: ms).foldl removeFromHome ps
        = ms.foldl removeFromHome (removeFromHome ps m) := rfl
    rw [h1, ih (removeFromHome ps m)]
    unfold removeFromHome
    rw [List.map_map]
    apply List.map_congr_left
    intro p _
    rfl

theorem removeAllRes_hut (marked : List MeepleRec) :
    ∀ h : HutRec, removeAllRes marked (PlaceableRec.hut h)
      = PlaceableRec.hut (hutEraseAll marked h) := by
  induction marked with
  | nil => intro h; rfl
  | cons m ms ih =>
    intro h
    calc removeAllRes (m :: ms) (PlaceableRec.hut h)
        = removeAllRes ms (removeResOne m (PlaceableRec.hut h)) := rfl
      _ = removeAllRes ms (PlaceableRec.hut (hutErase m h)) := by rw [removeResOne_hut]
      _ = PlaceableRec.hut (hutEraseAll ms (hutErase m h)) := ih _
      _ = PlaceableRec.hut (hutEraseAll (m :: ms) h) := rfl

theorem removeAllRes_hole (marked : List MeepleRec) (x y : ℤ) :
    removeAllRes marked (PlaceableRec.hole x y) = PlaceableRec.hole x y := by
  induction marked with
  | nil => rfl
  | cons m ms ih =>
    calc removeAllRes (m :: ms) (PlaceableRec.hole x y)
        = removeAllRes ms (removeResOne m (PlaceableRec.hole x y)) := rfl
      _ = removeAllRes ms (PlaceableRec.hole x y) := by rw [removeResOne_hole]
      _ = PlaceableRec.hole x y := ih

theorem removeAllRes_farm (marked : List MeepleRec) (x y : ℤ) :
    removeAllRes marked (PlaceableRec.farm x y) = PlaceableRec.farm x y := by
  induction marked with
  | nil => rfl
  | cons m ms ih =>
    calc removeAllRes (m :: ms) (PlaceableRec.farm x y)
        = removeAllRes ms (removeResOne m (PlaceableRec.farm x y)) := rfl
      _ = removeAllRes ms (PlaceableRec.farm x y) := by rw [removeResOne_farm]
      _ = PlaceableRec.farm x y := ih

theorem removeAllRes_factory (marked : List MeepleRec) (x y : ℤ) :
    removeAllRes marked (PlaceableRec.factory x y) = PlaceableRec.factory x y := by
  induction marked with
  | nil => rfl
  | cons m ms ih =>
    calc removeAllRes (m :: ms) (PlaceableRec.factory x y)
        = removeAllRes ms (removeResOne m (PlaceableRec.factory x y)) := rfl
      _ = removeAllRes ms (PlaceableRec.factory x y) := by rw [removeResOne_factory]
      _ = PlaceableRec.factory x y := ih

theorem removeAllRes_tree (marked : List MeepleRec) (x y : ℤ) :
    removeAllRes marked (PlaceableRec.tree x y) = PlaceableRec.tree x y := by
  induction marked with
  | nil => rfl
  | cons m ms ih =>
    calc removeAllRes (m :: ms) (PlaceableRec.tree x y)
        = removeAllRes ms (removeResOne m (PlaceableRec.tree x y)) := rfl
      _ = removeAllRes ms (PlaceableRec.tree x y) := by rw [removeResOne_tree]
      _ = PlaceableRec.tree x y := ih

theorem hutErase_shape (m : MeepleRec) (h : HutRec) :
    (hutErase m h).id = h.id ∧ (hutErase m h).max_residents = h.max_residents ∧
    (hutErase m h).residents.Sublist h.residents := by
  unfold hutErase
  cases m.home with
  | none => exact ⟨rfl, rfl, List.Sublist.refl _⟩
  | some hid =>
    dsimp only
    by_cases hh : h.id = hid
    · rw [if_pos hh]
      exact ⟨rfl, rfl, List.erase_sublist _ _⟩
    · rw [if_neg hh]
      exact ⟨rfl, rfl, List.Sublist.refl _⟩

theorem hutEraseAll_shape (marked : List MeepleRec) :
    ∀ h : HutRec, (hutEraseAll marked h).id = h.id ∧
      (hutEraseAll marked h).max_residents = h.max_residents ∧
      (hutEraseAll marked h).residents.Sublist h.residents := by
  induction marked with
  | nil => intro h; exact ⟨rfl, rfl, List.Sublist.refl _⟩
  | cons m ms ih =>
    intro h
    have h1 := hutErase_shape m h
    have h2 := ih (hutErase m h)
    have he : hutEraseAll (m :: ms) h = hutEraseAll ms (hutErase m h) := rfl
    rw [he]
    exact ⟨h2.1.trans h1.1, h2.2.1.trans h1.2.1, h2.2.2.trans h1.2.2⟩

theorem hutEraseAll_not_mem (marked : List MeepleRec) :
    ∀ (m : MeepleRec) (h : HutRec), m ∈ marked → m.home = some h.id →
      h.residents.Nodup → m.id ∉ (hutEraseAll marked h).residents := by
  induction marked with
  | nil =>
    intro m h hm
    simp at hm
  | cons m0 ms ih =>
    intro m h hm hhome hnd
    have he : hutEraseAll (m0 :: ms) h = hutEraseAll ms (hutErase m0 h) := rfl
    rw [he]
    rcases List.mem_cons.mp hm with hme | hme
    · subst hme
      have herase : (hutErase m h).residents = h.residents.erase m.id := by
        unfold hutErase
        rw [hhome]
        simp
      have hnotin : m.id ∉ (hutErase m h).residents := by
        rw [herase]
        intro hin
        exact ((hnd.mem_erase_iff).mp hin).1 rfl
      intro hin
      exact hnotin ((hutEraseAll_shape ms (hutErase m h)).2.2.subset hin)
    · have h1 := hutErase_shape m0 h
      apply ih m (hutErase m0 h) hme
      · rw [h1.1]
        exact hhome
      · exact h1.2.2.nodup hnd

theorem removalBatch_inv (w : World) (marked : List MeepleRec) (hw : Inv w)
    (hsub : ∀ m ∈ marked, m ∈ w.meeples) : Inv (removalBatch w marked) := by
  obtain ⟨hndM, hndH, hok⟩ := hw
  unfold removalBatch
  refine ⟨?_, ?_, ?_⟩
  · have hs : (w.meeples.filter fun m => !(marked.any fun m2 => m2.id == m.id)).Sublist
        w.meeples := List.filter_sublist _
    exact (hs.map MeepleRec.id).nodup hndM
  · rw [removalFold_eq_map]
    rw [hutIds_map_of_id_preserved]
    · exact hndH
    · intro p
      cases p with
      | hut h =>
        rw [removeAllRes_hut]
        simp [hutIdOf, (hutEraseAll_shape marked h).1]
      | hole x y => rw [removeAllRes_hole]
      | farm x y => rw [removeAllRes_farm]
      | factory x y => rw [removeAllRes_factory]
      | tree x y => rw [removeAllRes_tree]
  · rw [removalFold_eq_map]
    intro p' hp'
    obtain ⟨p, hp, hpe⟩ := List.mem_map.mp hp'
    subst hpe
    cases p with
    | hut h =>
      rw [removeAllRes_hut]
      obtain ⟨hnd0, hlen0, hmax0, hres0⟩ := hok _ hp
      obtain ⟨hid0, hmax0', hsub0⟩ := hutEraseAll_shape marked h
      refine ⟨hsub0.nodup hnd0, ?_, by rw [hmax0']; exact hmax0, ?_⟩
      · calc (hutEraseAll marked h).residents.length
            ≤ h.residents.length := hsub0.length_le
          _ ≤ h.max_residents := hlen0
          _ = (hutEraseAll marked h).max_residents := hmax0'.symm
      · intro mid hmid
        have hmid_orig : mid ∈ h.residents := hsub0.subset hmid
        obtain ⟨m1, hm1mem, hm1id, hm1home⟩ := hres0 mid hmid_orig
        by_cases hmarked : ∃ m2 ∈ marked, m2.id = m1.id
        · exfalso
          obtain ⟨m2, hm2mem, hm2id⟩ := hmarked
          have hm2m1 : m2 = m1 := meeple_id_inj hndM (hsub m2 hm2mem) hm1mem hm2id
          have hnm : m1.id ∉ (hutEraseAll marked h).residents :=
            hutEraseAll_not_mem marked m1 h (hm2m1 ▸ hm2mem) hm1home hnd0
          rw [hm1id] at hnm
          exact hnm hmid
        · refine ⟨m1, ?_, hm1id, ?_⟩
          · apply List.mem_filter.mpr
            refine ⟨hm1mem, ?_⟩
            simp only [Bool.not_eq_true']
            rw [List.any_eq_false]
            intro m2 hm2
            simp only [beq_iff_eq]
            exact fun hcc => hmarked ⟨m2, hm2, hcc⟩
          · rw [hid0]
            exact hm1home
    | hole x y =>
      rw [removeAllRes_hole]
      exact trivial
    | farm x y =>
      rw [removeAllRes_farm]
      exact trivial
    | factory x y =>
      rw [removeAllRes_factory]
      exact trivial
    | tree x y =>
      rw [removeAllRes_tree]
      exact trivial

/-! ### Invariant preservation: placement and meeple addition -/

theorem lookupHut_none_not_mem_hutIds (ps : List PlaceableRec) (hid : Nat)
    (h : lookupHut ps hid = none) : hid ∉ hutIds ps := by
  intro hin
  obtain ⟨p, hp, hpe⟩ := List.mem_filterMap.mp hin
  cases p with
  | hut h2 =>
    simp only [hutIdOf, Option.some.injEq] at hpe
    exact (lookupHut_none_iff ps hid).mp h h2 hp hpe
  | hole x y => simp [hutIdOf] at hpe
  | farm x y => simp [hutIdOf] at hpe
  | factory x y => simp [hutIdOf] at hpe
  | tree x y => simp [hutIdOf] at hpe

theorem inv_append_placeable (w : World) (p : PlaceableRec) (hw : Inv w)
    (hok : HutOk w.meeples p)
    (hfresh : ∀ h : HutRec, p = PlaceableRec.hut h → h.id ∉ hutIds w.placeables) :
    Inv { w with placeables := w.placeables ++ [p] } := by
  obtain ⟨hndM, hndH, hokAll⟩ := hw
  refine ⟨hndM, ?_, ?_⟩
  · have happ : hutIds (w.placeables ++ [p]) = hutIds w.placeables ++ hutIds [p] := by
      simp [hutIds, List.filterMap_append]
    rw [happ, List.nodup_append]
    refine ⟨hndH, ?_, ?_⟩
    · cases p <;> simp [hutIds, List.filterMap_cons, hutIdOf]
    · intro a ha ha2
      cases p with
      | hut h =>
        have ha2' : a = h.id := by
          simpa [hutIds, List.filterMap_cons, hutIdOf] using ha2
        subst ha2'
        exact hfresh h rfl ha
      | hole x y => simp [hutIds, List.filterMap_cons, hutIdOf] at ha2
      | farm x y => simp [hutIds, List.filterMap_cons, hutIdOf] at ha2
      | factory x y => simp [hutIds, List.filterMap_cons, hutIdOf] at ha2
      | tree x y => simp [hutIds, List.filterMap_cons, hutIdOf] at ha2
  · intro p' hp'
    rcases List.mem_append.mp hp' with hin | hin
    · exact hokAll p' hin
    · rw [List.mem_singleton] at hin
      subst hin
      exact hok

theorem addMeeple_inv (w : World) (mx my : ℤ) (mid : Nat) (hw : Inv w)
    (hfresh : ∀ m ∈ w.meeples, m.id ≠ mid) : Inv (addMeeple w mx my mid) := by
  obtain ⟨hndM, hndH, hok⟩ := hw
  unfold addMeeple
  dsimp only
  by_cases hc : (w.placeables.any fun p =>
      colliderect (collisionRect p) ⟨mx - 1, my - 1, 2, 2⟩) = true
  · rw [if_pos hc]
    exact ⟨hndM, hndH, hok⟩
  · rw [if_neg hc]
    refine ⟨?_, hndH, ?_⟩
    · rw [List.map_append, List.nodup_append]
      refine ⟨hndM, List.nodup_singleton _, ?_⟩
      intro a ha ha2
      simp only [List.map_cons, List.map_nil, List.mem_singleton] at ha2
      subst ha2
      obtain ⟨m, hm, hmid⟩ := List.mem_map.mp ha
      exact hfresh m hm hmid
    · intro p hp
      have hokp := hok p hp
      cases p with
      | hut h =>
        obtain ⟨a, b, c, d⟩ := hokp
        refine ⟨a, b, c, ?_⟩
        intro mid' hm
        obtain ⟨m1, hm1, h1, h2⟩ := d mid' hm
        exact ⟨m1, List.mem_append_left _ hm1, h1, h2⟩
      | hole x y => exact trivial
      | farm x y => exact trivial
      | factory x y => exact trivial
      | tree x y => exact trivial

theorem tryPlace_inv (w : World) (k : ToolKind) (x y : ℤ) (hid : Nat)
    (order : List Nat) (hw : Inv w) (hfresh : lookupHut w.placeables hid = none)
    (hhl : ∀ mid ∈ order, ∃ m ∈ w.meeples, m.id = mid ∧ m.home = none)
    (hnd : order.Nodup) : Inv (tryPlace w k x y hid order).1 := by
  unfold tryPlace
  dsimp only
  by_cases hc : (w.placeables.any fun p =>
      colliderect (collisionRect (mkPlaceable k x y hid)) (collisionRect p)) = true
  · rw [if_pos hc]
    exact hw
  · rw [if_neg hc]
    have hfresh2 : ∀ h : HutRec, mkPlaceable k x y hid = PlaceableRec.hut h →
        h.id ∉ hutIds w.placeables := by
      intro h he
      cases k with
      | hut =>
        simp only [mkPlaceable, PlaceableRec.hut.injEq] at he
        rw [← he]
        exact lookupHut_none_not_mem_hutIds _ _ hfresh
      | hole => simp [mkPlaceable] at he
      | farm => simp [mkPlaceable] at he
      | factory => simp [mkPlaceable] at he
      | tree => simp [mkPlaceable] at he
    have hok : HutOk w.meeples (mkPlaceable k x y hid) := by
      cases k with
      | hut =>
        refine ⟨List.nodup_nil, ?_, rfl, ?_⟩
        · simp
        · intro mid hm
          simp at hm
      | hole => exact trivial
      | farm => exact trivial
      | factory => exact trivial
      | tree => exact trivial
    have hw1 : Inv { w with placeables := w.placeables ++ [mkPlaceable k x y hid] } :=
      inv_append_placeable w _ hw hok hfresh2
    cases k with
    | hut =>
      dsimp only
      exact assignLoop_inv hid order _ 0 hw1 hnd hhl
    | hole => exact hw1
    | farm => exact hw1
    | factory => exact hw1
    | tree => exact hw1

/-! ### The step relation preserves the invariant -/

theorem step_inv {w w' : World} (hw : Inv w) (hs : Step w w') : Inv w' := by
  cases hs with
  | place k x y hid order hfresh hhl hnd =>
    exact tryPlace_inv w k x y hid order hw hfresh hhl hnd
  | addM mx my mid hfresh => exact addMeeple_inv w mx my mid hw hfresh
  | hazardRemoval marked hsub hnd => exact removalBatch_inv w marked hw hsub

theorem initOk_inv {w : World} (h : InitOk w) : Inv w := by
  obtain ⟨h1, h2, h3⟩ := h
  refine ⟨h1, ?_, ?_⟩
  · rw [h3]
    exact List.nodup_nil
  · intro p hp
    rw [h3] at hp
    simp at hp

theorem reach_inv {w0 w : World} (h0 : Inv w0) (hr : Reach w0 w) : Inv w := by
  induction hr with
  | refl => exact h0
  | tail _ hstep ih => exact step_inv ih hstep

/-! ### C7: the speed multiplier stays clamped -/

theorem adjust_speed_mem (s d : ℚ) :
    MIN_SPEED_MULT ≤ adjust_speed s d ∧ adjust_speed s d ≤ MAX_SPEED_MULT := by
  unfold adjust_speed
  refine ⟨le_max_left _ _, max_le ?_ (min_le_right _ _)⟩
  unfold MIN_SPEED_MULT MAX_SPEED_MULT
  norm_num

theorem foldl_adjust_speed_mem (ds : List ℚ) :
    ∀ s : ℚ, MIN_SPEED_MULT ≤ s → s ≤ MAX_SPEED_MULT →
      MIN_SPEED_MULT ≤ ds.foldl adjust_speed s ∧ ds.foldl adjust_speed s ≤ MAX_SPEED_MULT := by
  induction ds with
  | nil => exact fun s h1 h2 => ⟨h1, h2⟩
  | cons d ds ih =>
    intro s _ _
    exact ih _ (adjust_speed_mem s d).1 (adjust_speed_mem s d).2

/-- C7: starting from the initial multiplier 1.0, any sequence of
adjust_speed(+step)/adjust_speed(-step) events, each followed by the
clamp, keeps the speed multiplier within [MIN_SPEED_MULT, MAX_SPEED_MULT]
= [0.2, 5.0]. -/
theorem speed_multiplier_clamped (ds : List ℚ) :
    (∀ d ∈ ds, d = SPEED_CHANGE_STEP ∨ d = -SPEED_CHANGE_STEP) →
    MIN_SPEED_MULT ≤ ds.foldl adjust_speed 1 ∧ ds.foldl adjust_speed 1 ≤ MAX_SPEED_MULT := by
  intro _
  refine foldl_adjust_speed_mem ds 1 ?_ ?_ <;> norm_num [MIN_SPEED_MULT, MAX_SPEED_MULT]

theorem speed_multiplier_clamped_witness :
    (∀ d ∈ [SPEED_CHANGE_STEP, -SPEED_CHANGE_STEP, SPEED_CHANGE_STEP],
        d = SPEED_CHANGE_STEP ∨ d = -SPEED_CHANGE_STEP) ∧
    (MIN_SPEED_MULT ≤ [SPEED_CHANGE_STEP, -SPEED_CHANGE_STEP,
        SPEED_CHANGE_STEP].foldl adjust_speed 1 ∧
      [SPEED_CHANGE_STEP, -SPEED_CHANGE_STEP, SPEED_CHANGE_STEP].foldl adjust_speed 1
        ≤ MAX_SPEED_MULT) :=
  ⟨by simp, speed_multiplier_clamped _ (by simp)⟩

/-! ### C8: the rain slowdown effect -/

/-- C8: while the rain effect is active every agent's speed-effect
multiplier is set to RAIN_SPEED_MULTIPLIER = 0.6 on the frame; once
`now` passes the armed expiry time the effect deactivates with no user
action and every agent's multiplier is set back to 1.0, on that frame
and on all later frames; in particular this happens after the configured
RAIN_DURATION has elapsed since the toggle. -/
theorem rain_effect_spec (rs : RainState) (now : ℚ) (agents : List ℚ) :
    (rs.is_raining = true → now ≤ rs.rain_end_time →
      (rainFrame rs now agents).1.is_raining = true ∧
      ∀ v ∈ (rainFrame rs now agents).2, v = RAIN_SPEED_MULTIPLIER) ∧
    (rs.is_raining = true → now > rs.rain_end_time →
      (rainFrame rs now agents).1.is_raining = false ∧
      ∀ v ∈ (rainFrame rs now agents).2, v = 1) ∧
    (rs.is_raining = false →
      (rainFrame rs now agents).1.is_raining = false ∧
      ∀ v ∈ (rainFrame rs now agents).2, v = 1) ∧
    (∀ t0 : ℚ, rs.is_raining = false → now > t0 + RAIN_DURATION →
      (rainFrame (toggleRain rs t0) now agents).1.is_raining = false ∧
      ∀ v ∈ (rainFrame (toggleRain rs t0) now agents).2, v = 1) := by
  have hmap : ∀ c v : ℚ, v ∈ agents.map (fun _ => c) → v = c := by
    intro c v hv
    simp only [List.mem_map] at hv
    obtain ⟨_, _, h⟩ := hv
    exact h.symm
  refine ⟨?_, ?_, ?_, ?_⟩
  · intro hr hle
    have hcond : ¬ (rs.is_raining = true ∧ now > rs.rain_end_time) := by
      rintro ⟨_, hgt⟩; exact absurd hle (not_le.mpr hgt)
    have hrf : rainFrame rs now agents = (rs, agents.map fun _ => RAIN_SPEED_MULTIPLIER) := by
      unfold rainFrame
      rw [if_neg hcond]
      simp [hr]
    rw [hrf]
    exact ⟨hr, hmap _⟩
  · intro hr hgt
    have hcond : rs.is_raining = true ∧ now > rs.rain_end_time := ⟨hr, hgt⟩
    have hrf : rainFrame rs now agents
        = (⟨false, rs.rain_end_time⟩, agents.map fun _ => 1) := by
      unfold rainFrame
      rw [if_pos hcond]
      simp
    rw [hrf]
    exact ⟨rfl, hmap _⟩
  · intro hr
    have hcond : ¬ (rs.is_raining = true ∧ now > rs.rain_end_time) := by
      rintro ⟨h1, _⟩; rw [hr] at h1; exact Bool.false_ne_true h1
    have hrf : rainFrame rs now agents = (rs, agents.map fun _ => 1) := by
      unfold rainFrame
      rw [if_neg hcond]
      simp [hr]
    rw [hrf]
    exact ⟨hr, hmap _⟩
  · intro t0 hr hgt
    have ht : toggleRain rs t0 = ⟨true, t0 + RAIN_DURATION⟩ := by
      simp [toggleRain, hr]
    rw [ht]
    have hcond : ((⟨true, t0 + RAIN_DURATION⟩ : RainState).is_raining = true) ∧
        now > (⟨true, t0 + RAIN_DURATION⟩ : RainState).rain_end_time := ⟨rfl, hgt⟩
    have hrf : rainFrame ⟨true, t0 + RAIN_DURATION⟩ now agents
        = (⟨false, t0 + RAIN_DURATION⟩, agents.map fun _ => 1) := by
      unfold rainFrame
      rw [if_pos hcond]
      simp
    rw [hrf]
    exact ⟨rfl, hmap _⟩

/-! ### C1: the hut capacity bound -/

/-- C1: in every world reachable from a startup world by the game loop's
world-mutating operations (placement with resident assignment, meeple
addition, hazard-consumption removal batches; per-frame position updates
touch neither homes nor resident lists), every Hut's resident list has
length at most its capacity, and that capacity is HUT_MAX_RESIDENTS = 4;
moreover assign_home on a full Hut returns False and leaves the world
unchanged. -/
theorem hut_capacity_bound :
    (∀ w0 w : World, InitOk w0 → Reach w0 w →
      ∀ h : HutRec, PlaceableRec.hut h ∈ w.placeables →
        h.residents.length ≤ h.max_residents ∧ h.max_residents = HUT_MAX_RESIDENTS) ∧
    (∀ (w : World) (mid hid : Nat) (h : HutRec),
      lookupHut w.placeables hid = some h →
      ¬ h.residents.length < h.max_residents →
      assign_home w mid hid = (w, false)) := by
  constructor
  · intro w0 w h0 hr h hmem
    obtain ⟨-, -, hok⟩ := reach_inv (initOk_inv h0) hr
    obtain ⟨-, hlen, hmax, -⟩ := hok _ hmem
    exact ⟨hlen, hmax⟩
  · intro w mid hid h hl hfull
    unfold assign_home
    rw [hl]
    dsimp only
    rw [if_neg hfull]

theorem hut_capacity_bound_witness :
    InitOk (World.mk [⟨0, 0, 0, none⟩] []) ∧
    ((⟨0, 100, 100, [], HUT_MAX_RESIDENTS⟩ : HutRec).residents.length
        ≤ (⟨0, 100, 100, [], HUT_MAX_RESIDENTS⟩ : HutRec).max_residents ∧
      (⟨0, 100, 100, [], HUT_MAX_RESIDENTS⟩ : HutRec).max_residents = HUT_MAX_RESIDENTS) ∧
    assign_home ⟨[], [PlaceableRec.hut ⟨5, 0, 0, [1, 2, 3, 4], 4⟩]⟩ 9 5
      = (⟨[], [PlaceableRec.hut ⟨5, 0, 0, [1, 2, 3, 4], 4⟩]⟩, false) := by
  have h0 : InitOk (World.mk [⟨0, 0, 0, none⟩] []) := by
    refine ⟨List.nodup_singleton _, ?_, rfl⟩
    intro m hm
    rw [List.mem_singleton] at hm
    rw [hm]
  have hstep : Step (World.mk [⟨0, 0, 0, none⟩] [])
      (tryPlace (World.mk [⟨0, 0, 0, none⟩] []) ToolKind.hut 100 100 0 []).1 :=
    Step.place (World.mk [⟨0, 0, 0, none⟩] []) ToolKind.hut 100 100 0 [] rfl
      (fun mid hm => absurd hm (List.not_mem_nil mid)) List.nodup_nil
  have hreach : Reach (World.mk [⟨0, 0, 0, none⟩] [])
      (tryPlace (World.mk [⟨0, 0, 0, none⟩] []) ToolKind.hut 100 100 0 []).1 :=
    Relation.ReflTransGen.single hstep
  have hmem : PlaceableRec.hut ⟨0, 100, 100, [], HUT_MAX_RESIDENTS⟩
      ∈ (tryPlace (World.mk [⟨0, 0, 0, none⟩] []) ToolKind.hut 100 100 0 []).1.placeables := by
    decide
  exact ⟨h0, hut_capacity_bound.1 _ _ h0 hreach _ hmem,
    hut_capacity_bound.2 _ 9 5 ⟨5, 0, 0, [1, 2, 3, 4], 4⟩ rfl (by decide)⟩

/-! ### C9: resident lists only hold live agents -/

/-- C9: in every world reachable from a startup world, every entry in any
Hut's resident list is the id of an agent currently present in the world's
agent collection — resident assignment draws only from the live agent
list, and the hazard-removal batch excises a consumed agent from its
Hut's resident list in the same batch that removes it from the agent
collection. -/
theorem residents_are_live :
    ∀ w0 w : World, InitOk w0 → Reach w0 w →
      ∀ h : HutRec, PlaceableRec.hut h ∈ w.placeables →
        ∀ mid ∈ h.residents, ∃ m ∈ w.meeples, m.id = mid := by
  intro w0 w h0 hr h hmem mid hmid
  obtain ⟨-, -, hok⟩ := reach_inv (initOk_inv h0) hr
  obtain ⟨-, -, -, hres⟩ := hok _ hmem
  obtain ⟨m, hm, hmid2, -⟩ := hres mid hmid
  exact ⟨m, hm, hmid2⟩

theorem residents_are_live_witness :
    InitOk (World.mk [⟨7, 0, 0, none⟩] []) ∧
    PlaceableRec.hut ⟨3, 100, 100, [7], HUT_MAX_RESIDENTS⟩
      ∈ (tryPlace (World.mk [⟨7, 0, 0, none⟩] []) ToolKind.hut 100 100 3 [7]).1.placeables ∧
    (7 : Nat) ∈ (⟨3, 100, 100, [7], HUT_MAX_RESIDENTS⟩ : HutRec).residents ∧
    ∃ m ∈ (tryPlace (World.mk [⟨7, 0, 0, none⟩] []) ToolKind.hut 100 100 3 [7]).1.meeples,
      m.id = 7 := by
  have h0 : InitOk (World.mk [⟨7, 0, 0, none⟩] []) := by
    refine ⟨List.nodup_singleton _, ?_, rfl⟩
    intro m hm
    rw [List.mem_singleton] at hm
    rw [hm]
  have hhl : ∀ mid ∈ [7], ∃ m ∈ (World.mk [⟨7, 0, 0, none⟩] []).meeples,
      MeepleRec.id m = mid ∧ m.home = none := by
    intro mid hm
    rw [List.mem_singleton] at hm
    subst hm
    exact ⟨⟨7, 0, 0, none⟩, List.mem_singleton_self _, rfl, rfl⟩
  have hstep : Step (World.mk [⟨7, 0, 0, none⟩] [])
      (tryPlace (World.mk [⟨7, 0, 0, none⟩] []) ToolKind.hut 100 100 3 [7]).1 :=
    Step.place (World.mk [⟨7, 0, 0, none⟩] []) ToolKind.hut 100 100 3 [7] rfl hhl
      (List.nodup_singleton _)
  have hreach : Reach (World.mk [⟨7, 0, 0, none⟩] [])
      (tryPlace (World.mk [⟨7, 0, 0, none⟩] []) ToolKind.hut 100 100 3 [7]).1 :=
    Relation.ReflTransGen.single hstep
  have hmem : PlaceableRec.hut ⟨3, 100, 100, [7], HUT_MAX_RESIDENTS⟩
      ∈ (tryPlace (World.mk [⟨7, 0, 0, none⟩] []) ToolKind.hut 100 100 3 [7]).1.placeables := by
    decide
  exact ⟨h0, hmem, List.mem_singleton_self _,
    residents_are_live _ _ h0 hreach _ hmem 7 (List.mem_singleton_self _)⟩

/-! ### Shape lemmas for placement -/

theorem lookupHut_append (ps qs : List PlaceableRec) (hid : Nat) :
    lookupHut (ps ++ qs) hid = (lookupHut ps hid).or (lookupHut qs hid) :=
  List.findSome?_append

theorem map_updHut_of_none (ps : List PlaceableRec) (hid : Nat) (f : HutRec → HutRec)
    (h : lookupHut ps hid = none) : ps.map (updHut hid f) = ps := by
  induction ps with
  | nil => rfl
  | cons p ps ih =>
    rw [lookupHut, List.findSome?_cons] at h
    cases htp : toHutWithId hid p with
    | some h2 =>
      rw [htp] at h
      simp at h
    | none =>
      rw [htp] at h
      rw [List.map_cons, ih h]
      congr 1
      cases p with
      | hut h3 =>
        simp only [toHutWithId] at htp
        by_cases hh : h3.id = hid
        · rw [if_pos hh] at htp
          exact Option.noConfusion htp
        · simp [updHut, hh]
      | hole x y => rfl
      | farm x y => rfl
      | factory x y => rfl
      | tree x y => rfl

theorem assign_home_placeables_shape (w : World) (mid hid : Nat)
    (ps : List PlaceableRec) (h : HutRec)
    (hps : w.placeables = ps ++ [PlaceableRec.hut h])
    (hnone : lookupHut ps hid = none) (hh : h.id = hid) :
    ∃ h' : HutRec, (assign_home w mid hid).1.placeables = ps ++ [PlaceableRec.hut h']
      ∧ h'.id = hid := by
  unfold assign_home
  cases hl : lookupHut w.placeables hid with
  | none => exact ⟨h, hps, hh⟩
  | some h2 =>
    dsimp only
    by_cases hc : h2.residents.length < h2.max_residents
    · rw [if_pos hc]
      dsimp only
      rw [hps, List.map_append, map_updHut_of_none ps hid _ hnone]
      refine ⟨{ h with residents := h.residents ++ [mid] }, ?_, hh⟩
      simp [updHut, hh]
    · rw [if_neg hc]
      exact ⟨h, hps, hh⟩

theorem assignLoop_placeables_shape (hid : Nat) (order : List Nat) :
    ∀ (w : World) (count : Nat) (ps : List PlaceableRec) (h : HutRec),
      w.placeables = ps ++ [PlaceableRec.hut h] → lookupHut ps hid = none →
      h.id = hid →
      ∃ h' : HutRec,
        (assignLoop hid w order count).placeables = ps ++ [PlaceableRec.hut h']
          ∧ h'.id = hid := by
  induction order with
  | nil =>
    intro w count ps h hps hnone hh
    exact ⟨h, hps, hh⟩
  | cons mid rest ih =>
    intro w count ps h hps hnone hh
    obtain ⟨h', hps', hh'⟩ := assign_home_placeables_shape w mid hid ps h hps hnone hh
    unfold assignLoop
    by_cases hok2 : (assign_home w mid hid).2 = true
    · rw [if_pos hok2]
      by_cases hcnt : count + 1 ≥ HUT_MAX_RESIDENTS
      · rw [if_pos hcnt]
        exact ⟨h', hps', hh'⟩
      · rw [if_neg hcnt]
        exact ih _ _ ps h' hps' hnone hh'
    · rw [if_neg hok2]
      exact ih _ _ ps h' hps' hnone hh'

/-! ### C3: placement is rejected on overlap with no mutation -/

/-- C3: try_place rejects, returning the whole world unchanged, when the
candidate's collision bounds intersect any existing placeable's collision
bounds; otherwise it accepts and the new Placeable is appended to the
world's placeable collection. -/
theorem try_place_contract (w : World) (k : ToolKind) (x y : ℤ) (hid : Nat)
    (order : List Nat) (hfresh : lookupHut w.placeables hid = none) :
    ((∃ p ∈ w.placeables,
        colliderect (collisionRect (mkPlaceable k x y hid)) (collisionRect p) = true) →
      tryPlace w k x y hid order = (w, false)) ∧
    ((∀ p ∈ w.placeables,
        colliderect (collisionRect (mkPlaceable k x y hid)) (collisionRect p) = false) →
      (tryPlace w k x y hid order).2 = true ∧
      ∃ pl : PlaceableRec,
        (tryPlace w k x y hid order).1.placeables = w.placeables ++ [pl]) := by
  constructor
  · intro hex
    unfold tryPlace
    dsimp only
    rw [if_pos (List.any_eq_true.mpr hex)]
  · intro hall
    have hnot : ¬ (w.placeables.any fun p =>
        colliderect (collisionRect (mkPlaceable k x y hid)) (collisionRect p)) = true := by
      rw [List.any_eq_true]
      rintro ⟨p, hp, hc⟩
      rw [hall p hp] at hc
      exact Bool.false_ne_true hc
    unfold tryPlace
    dsimp only
    rw [if_neg hnot]
    cases k with
    | hut =>
      dsimp only
      refine ⟨rfl, ?_⟩
      obtain ⟨h', hsh, -⟩ := assignLoop_placeables_shape hid order
        { w with placeables := w.placeables ++ [PlaceableRec.hut ⟨hid, x, y, [], HUT_MAX_RESIDENTS⟩] }
        0 w.placeables ⟨hid, x, y, [], HUT_MAX_RESIDENTS⟩ rfl hfresh rfl
      exact ⟨PlaceableRec.hut h', hsh⟩
    | hole => exact ⟨rfl, _, rfl⟩
    | farm => exact ⟨rfl, _, rfl⟩
    | factory => exact ⟨rfl, _, rfl⟩
    | tree => exact ⟨rfl, _, rfl⟩

theorem try_place_contract_witness :
    lookupHut (World.mk [] [PlaceableRec.hole 100 100]).placeables 0 = none ∧
    (∃ p ∈ (World.mk [] [PlaceableRec.hole 100 100]).placeables,
      colliderect (collisionRect (mkPlaceable ToolKind.hut 100 100 0))
        (collisionRect p) = true) ∧
    tryPlace (World.mk [] [PlaceableRec.hole 100 100]) ToolKind.hut 100 100 0 []
      = (World.mk [] [PlaceableRec.hole 100 100], false) ∧
    lookupHut (World.mk [] [PlaceableRec.hole 100 100]).placeables 1 = none ∧
    (∀ p ∈ (World.mk [] [PlaceableRec.hole 100 100]).placeables,
      colliderect (collisionRect (mkPlaceable ToolKind.farm 400 400 1))
        (collisionRect p) = false) ∧
    ((tryPlace (World.mk [] [PlaceableRec.hole 100 100]) ToolKind.farm 400 400 1 []).2 = true ∧
      ∃ pl : PlaceableRec,
        (tryPlace (World.mk [] [PlaceableRec.hole 100 100])
            ToolKind.farm 400 400 1 []).1.placeables
          = (World.mk [] [PlaceableRec.hole 100 100]).placeables ++ [pl]) := by
  have hfr0 : lookupHut (World.mk [] [PlaceableRec.hole 100 100]).placeables 0 = none := by
    decide
  have hfr1 : lookupHut (World.mk [] [PlaceableRec.hole 100 100]).placeables 1 = none := by
    decide
  have hex : ∃ p ∈ (World.mk [] [PlaceableRec.hole 100 100]).placeables,
      colliderect (collisionRect (mkPlaceable ToolKind.hut 100 100 0))
        (collisionRect p) = true := by
    decide
  have hall : ∀ p ∈ (World.mk [] [PlaceableRec.hole 100 100]).placeables,
      colliderect (collisionRect (mkPlaceable ToolKind.farm 400 400 1))
        (collisionRect p) = false := by
    decide
  exact ⟨hfr0, hex,
    (try_place_contract (World.mk [] [PlaceableRec.hole 100 100])
      ToolKind.hut 100 100 0 [] hfr0).1 hex,
    hfr1, hall,
    (try_place_contract (World.mk [] [PlaceableRec.hole 100 100])
      ToolKind.farm 400 400 1 [] hfr1).2 hall⟩

/-! ### The exact content of the assignment loop -/

theorem assignLoop_spec (hid : Nat) (order : List Nat) :
    ∀ (w : World) (h : HutRec), order.Nodup →
      lookupHut w.placeables hid = some h →
      h.max_residents = HUT_MAX_RESIDENTS →
      ∃ h' : HutRec,
        lookupHut (assignLoop hid w order h.residents.length).placeables hid = some h' ∧
        h'.residents = h.residents ++ order.take (HUT_MAX_RESIDENTS - h.residents.length) ∧
        (assignLoop hid w order h.residents.length).meeples
          = w.meeples.map fun m =>
              if m.id ∈ order.take (HUT_MAX_RESIDENTS - h.residents.length)
              then { m with home := some hid } else m := by
  induction order with
  | nil =>
    intro w h _ hl _
    refine ⟨h, hl, by simp, ?_⟩
    calc w.meeples
        = w.meeples.map id := (List.map_id _).symm
      _ = _ := List.map_congr_left (fun m _ => by simp)
  | cons mid rest ih =>
    intro w h hnd hl hmax
    have hndr : rest.Nodup := (List.nodup_cons.mp hnd).2
    have hmidrest : mid ∉ rest := (List.nodup_cons.mp hnd).1
    by_cases hlt : h.residents.length < h.max_residents
    · have hassign : assign_home w mid hid =
          ({ meeples := w.meeples.map fun m =>
               if m.id = mid then { m with home := some hid } else m,
             placeables := w.placeables.map
               (updHut hid fun h0 => { h0 with residents := h0.residents ++ [mid] }) },
           true) := by
        unfold assign_home
        rw [hl]
        dsimp only
        rw [if_pos hlt]
      have hres2 : (assign_home w mid hid).2 = true := by rw [hassign]
      have hlook' : lookupHut (assign_home w mid hid).1.placeables hid
          = some { h with residents := h.residents ++ [mid] } := by
        rw [hassign]
        dsimp only
        rw [lookupHut_map_updHut w.placeables hid
          (fun h0 => { h0 with residents := h0.residents ++ [mid] }) (fun h0 => rfl), hl]
        rfl
      have htake1 : HUT_MAX_RESIDENTS - h.residents.length
          = (HUT_MAX_RESIDENTS - (h.residents.length + 1)) + 1 := by
        rw [hmax] at hlt
        unfold HUT_MAX_RESIDENTS at hlt ⊢
        omega
      by_cases hstop : h.residents.length + 1 ≥ HUT_MAX_RESIDENTS
      · have hlen1 : HUT_MAX_RESIDENTS - h.residents.length = 1 := by
          rw [hmax] at hlt
          unfold HUT_MAX_RESIDENTS at hlt hstop ⊢
          omega
        have hrun : assignLoop hid w (mid :: rest) h.residents.length
            = (assign_home w mid hid).1 := by
          conv_lhs => unfold assignLoop
          dsimp only
          rw [if_pos hres2, if_pos hstop]
        rw [hrun, hlen1]
        refine ⟨{ h with residents := h.residents ++ [mid] }, hlook', by simp, ?_⟩
        rw [hassign]
        dsimp only
        apply List.map_congr_left
        intro m _
        by_cases hmm : m.id = mid
        · simp [hmm]
        · simp [hmm]
      · have hrun : assignLoop hid w (mid :: rest) h.residents.length
            = assignLoop hid (assign_home w mid hid).1 rest (h.residents.length + 1) := by
          conv_lhs => unfold assignLoop
          dsimp only
          rw [if_pos hres2, if_neg hstop]
        obtain ⟨h', hl', hres', hmee'⟩ := ih (assign_home w mid hid).1
          { h with residents := h.residents ++ [mid] } hndr hlook' (by simpa using hmax)
        have hcnteq : ({ h with residents := h.residents ++ [mid] } : HutRec).residents.length
            = h.residents.length + 1 := by simp
        rw [hcnteq] at hl' hres' hmee'
        rw [hrun]
        refine ⟨h', hl', ?_, ?_⟩
        · rw [hres']
          rw [htake1, List.take_succ_cons]
          simp
        · rw [hmee']
          rw [hassign]
          dsimp only
          rw [List.map_map]
          apply List.map_congr_left
          intro m _
          simp only [Function.comp_apply]
          by_cases hmm : m.id = mid
          · have hnotin : m.id ∉ rest.take (HUT_MAX_RESIDENTS - (h.residents.length + 1)) := by
              rw [hmm]
              intro hin
              exact hmidrest (List.take_subset _ _ hin)
            rw [htake1, List.take_succ_cons]
            simp [hmm, hnotin]
          · rw [htake1, List.take_succ_cons]
            simp [hmm]
    · have hassign : assign_home w mid hid = (w, false) := by
        unfold assign_home
        rw [hl]
        dsimp only
        rw [if_neg hlt]
      have hrun : assignLoop hid w (mid :: rest) h.residents.length
          = assignLoop hid w rest h.residents.length := by
        conv_lhs => unfold assignLoop
        dsimp only
        rw [if_neg (by rw [hassign]; exact Bool.false_ne_true), hassign]
      obtain ⟨h', hl', hres', hmee'⟩ := ih w h hndr hl hmax
      have htake0 : HUT_MAX_RESIDENTS - h.residents.length = 0 := by
        rw [hmax] at hlt
        unfold HUT_MAX_RESIDENTS at hlt ⊢
        omega
      rw [htake0] at hres' hmee' ⊢
      rw [hrun]
      refine ⟨h', hl', by simpa using hres', ?_⟩
      rw [hmee']
      apply List.map_congr_left
      intro m _
      simp

/-! ### C4: successful Hut placement assigns min(capacity, homeless) -/

/-- C4: on a successful placement of a Hut while H agents have no home,
for every shuffle outcome (any permutation of the homeless pool) the new
Hut ends with exactly min(HUT_MAX_RESIDENTS, H) residents — the first
HUT_MAX_RESIDENTS entries of the shuffled order, each appearing once —
and exactly those agents end with their home set to the new Hut.  The
assigned set varies with the shuffle outcome, so no fixed deterministic
choice is made. -/
theorem hut_placement_assigns_min (w : World) (x y : ℤ) (hid : Nat) (order : List Nat)
    (hndM : (w.meeples.map MeepleRec.id).Nodup)
    (hperm : order.Perm (homelessIds w))
    (hnohome : ∀ m ∈ w.meeples, m.home ≠ some hid)
    (hfresh : lookupHut w.placeables hid = none)
    (hnoov : ∀ p ∈ w.placeables,
      colliderect (collisionRect (mkPlaceable ToolKind.hut x y hid))
        (collisionRect p) = false) :
    ∃ h' : HutRec,
      lookupHut (tryPlace w ToolKind.hut x y hid order).1.placeables hid = some h' ∧
      h'.residents = order.take HUT_MAX_RESIDENTS ∧
      h'.residents.length = min HUT_MAX_RESIDENTS (homelessIds w).length ∧
      h'.residents.Nodup ∧
      (∀ m ∈ (tryPlace w ToolKind.hut x y hid order).1.meeples,
        m.home = some hid ↔ m.id ∈ order.take HUT_MAX_RESIDENTS) := by
  have hnot : ¬ (w.placeables.any fun p =>
      colliderect (collisionRect (mkPlaceable ToolKind.hut x y hid))
        (collisionRect p)) = true := by
    rw [List.any_eq_true]
    rintro ⟨p, hp, hc⟩
    rw [hnoov p hp] at hc
    exact Bool.false_ne_true hc
  have hndO : order.Nodup := by
    rw [hperm.nodup_iff]
    have hsb : (w.meeples.filter fun m => m.home.isNone).Sublist w.meeples :=
      List.filter_sublist _
    exact (hsb.map MeepleRec.id).nodup hndM
  have hrw : tryPlace w ToolKind.hut x y hid order
      = (assignLoop hid
          { w with placeables := w.placeables
              ++ [PlaceableRec.hut ⟨hid, x, y, [], HUT_MAX_RESIDENTS⟩] } order 0, true) := by
    unfold tryPlace
    dsimp only
    rw [if_neg hnot]
    rfl
  have hlook1 : lookupHut (w.placeables
      ++ [PlaceableRec.hut ⟨hid, x, y, [], HUT_MAX_RESIDENTS⟩]) hid
      = some ⟨hid, x, y, [], HUT_MAX_RESIDENTS⟩ := by
    rw [lookupHut_append, hfresh]
    simp [lookupHut, List.findSome?_cons, toHutWithId]
  obtain ⟨h', hl', hres', hmee'⟩ := assignLoop_spec hid order
    { w with placeables := w.placeables
        ++ [PlaceableRec.hut ⟨hid, x, y, [], HUT_MAX_RESIDENTS⟩] }
    ⟨hid, x, y, [], HUT_MAX_RESIDENTS⟩ hndO hlook1 rfl
  have hcnt0 : ((⟨hid, x, y, [], HUT_MAX_RESIDENTS⟩ : HutRec)).residents.length = 0 := rfl
  rw [hcnt0] at hl' hres' hmee'
  rw [Nat.sub_zero] at hres' hmee'
  rw [hrw]
  dsimp only
  refine ⟨h', hl', ?_, ?_, ?_, ?_⟩
  · simpa using hres'
  · have hres'' : h'.residents = order.take HUT_MAX_RESIDENTS := by simpa using hres'
    rw [hres'', List.length_take, hperm.length_eq]
  · have hres'' : h'.residents = order.take HUT_MAX_RESIDENTS := by simpa using hres'
    rw [hres'']
    exact (List.take_sublist _ _).nodup hndO
  · intro m hm
    rw [hmee'] at hm
    obtain ⟨m0, hm0, hme⟩ := List.mem_map.mp hm
    by_cases hmm : m0.id ∈ order.take HUT_MAX_RESIDENTS
    · rw [if_pos hmm] at hme
      subst hme
      constructor
      · intro _
        exact hmm
      · intro _
        rfl
    · rw [if_neg hmm] at hme
      subst hme
      constructor
      · intro hcc
        exact absurd hcc (hnohome m0 hm0)
      · intro hin
        exact absurd hin hmm

theorem hut_placement_assigns_min_witness :
    (((World.mk ((List.range 10).map fun i => ⟨i + 1, 0, 0, none⟩) []).meeples.map
        MeepleRec.id).Nodup ∧
      ([10, 9, 8, 7, 6, 5, 4, 3, 2, 1] : List Nat).Perm
        (homelessIds (World.mk ((List.range 10).map fun i => ⟨i + 1, 0, 0, none⟩) [])) ∧
      lookupHut (World.mk ((List.range 10).map fun i => ⟨i + 1, 0, 0, none⟩) []).placeables 0
        = none) ∧
    (∃ h' : HutRec,
      lookupHut (tryPlace (World.mk ((List.range 10).map fun i => ⟨i + 1, 0, 0, none⟩) [])
          ToolKind.hut 100 100 0 [10, 9, 8, 7, 6, 5, 4, 3, 2, 1]).1.placeables 0 = some h' ∧
      h'.residents = ([10, 9, 8, 7, 6, 5, 4, 3, 2, 1] : List Nat).take HUT_MAX_RESIDENTS ∧
      h'.residents.length = min HUT_MAX_RESIDENTS
        (homelessIds (World.mk ((List.range 10).map fun i => ⟨i + 1, 0, 0, none⟩) [])).length ∧
      h'.residents.Nodup ∧
      (∀ m ∈ (tryPlace (World.mk ((List.range 10).map fun i => ⟨i + 1, 0, 0, none⟩) [])
          ToolKind.hut 100 100 0 [10, 9, 8, 7, 6, 5, 4, 3, 2, 1]).1.meeples,
        m.home = some 0 ↔ m.id ∈ ([10, 9, 8, 7, 6, 5, 4, 3, 2, 1] : List Nat).take
          HUT_MAX_RESIDENTS)) := by
  have hndM : ((World.mk ((List.range 10).map fun i => ⟨i + 1, 0, 0, none⟩) []).meeples.map
      MeepleRec.id).Nodup := by decide
  have hperm : ([10, 9, 8, 7, 6, 5, 4, 3, 2, 1] : List Nat).Perm
      (homelessIds (World.mk ((List.range 10).map fun i => ⟨i + 1, 0, 0, none⟩) [])) := by
    decide
  have hfresh : lookupHut
      (World.mk ((List.range 10).map fun i => ⟨i + 1, 0, 0, none⟩) []).placeables 0 = none := by
    decide
  have hnohome : ∀ m ∈ (World.mk ((List.range 10).map fun i => ⟨i + 1, 0, 0, none⟩)
      []).meeples, m.home ≠ some 0 := by decide
  have hnoov : ∀ p ∈ (World.mk ((List.range 10).map fun i => ⟨i + 1, 0, 0, none⟩)
      []).placeables,
      colliderect (collisionRect (mkPlaceable ToolKind.hut 100 100 0))
        (collisionRect p) = false := by decide
  exact ⟨⟨hndM, hperm, hfresh⟩,
    hut_placement_assigns_min _ 100 100 0 _ hndM hperm hnohome hfresh hnoov⟩

/-! ### C10: placement acceptance depends only on the placeables -/

/-- C10: the accept/reject decision of placing an object depends only on
the existing placeables' collision bounds: two worlds with identical
placeable collections but arbitrary different agent collections accept or
reject the same placement identically (so e.g. a Hole may be placed
directly over agents). -/
theorem placement_decision_ignores_agents (w1 w2 : World) (k : ToolKind) (x y : ℤ)
    (hid : Nat) (o1 o2 : List Nat) (hpe : w1.placeables = w2.placeables) :
    (tryPlace w1 k x y hid o1).2 = (tryPlace w2 k x y hid o2).2 := by
  cases k <;>
    (simp only [tryPlace, hpe]
     split <;> rfl)

theorem placement_decision_ignores_agents_witness :
    (World.mk [] [] : World).placeables
      = (World.mk [⟨1, 400, 300, none⟩, ⟨2, 410, 300, none⟩] []).placeables ∧
    (tryPlace ⟨[], []⟩ ToolKind.hole 400 300 0 []).2
      = (tryPlace ⟨[⟨1, 400, 300, none⟩, ⟨2, 410, 300, none⟩], []⟩ ToolKind.hole 400 300 0 []).2 ∧
    (tryPlace ⟨[⟨1, 400, 300, none⟩, ⟨2, 410, 300, none⟩], []⟩ ToolKind.hole 400 300 0 []).2
      = true :=
  ⟨rfl, placement_decision_ignores_agents _ _ _ _ _ _ _ _ rfl, by decide⟩

/-! ### C2: hazard consumption (amended) -/

/-- C2 (amended): in the meeple-obstacle pass, an agent whose distance to
a Hole's center is below the consumption radius 0.8 * HOLE_RADIUS at the
moment of the hole check — that is, after the rect-overlap push of the
same pass has been applied — is marked for removal; and the deferred
batch applied at the end of the frame removes every marked agent from the
agent collection and, if it has a home, removes its id from that Hut's
resident list. -/
theorem hazard_consumption_amended :
    (∀ (m : MState) (marked : Bool) (hx hy : ℤ) (dist dt : ℚ),
      ((meepleHoleStep m marked hx hy dist dt).1.x - (hx : ℚ)) ^ 2
          + ((meepleHoleStep m marked hx hy dist dt).1.y - (hy : ℚ)) ^ 2
          < ((HOLE_RADIUS : ℚ) * (4/5)) ^ 2 →
      (meepleHoleStep m marked hx hy dist dt).2 = true) ∧
    (∀ (w : World) (marked : List MeepleRec),
      (∀ h : HutRec, PlaceableRec.hut h ∈ w.placeables → h.residents.Nodup) →
      ∀ mr ∈ marked,
        (∀ m ∈ (removalBatch w marked).meeples, m.id ≠ mr.id) ∧
        (∀ hid : Nat, mr.home = some hid →
          ∀ h' : HutRec, PlaceableRec.hut h' ∈ (removalBatch w marked).placeables →
            h'.id = hid → mr.id ∉ h'.residents)) := by
  constructor
  · intro m marked hx hy dist dt hin
    unfold meepleHoleStep at hin ⊢
    dsimp only at hin ⊢
    rw [Bool.or_eq_true]
    right
    exact decide_eq_true hin
  · intro w marked hres mr hmr
    constructor
    · intro m hm
      unfold removalBatch at hm
      dsimp only at hm
      have hf := (List.mem_filter.mp hm).2
      rw [Bool.not_eq_true'] at hf
      rw [List.any_eq_false] at hf
      have := hf mr hmr
      simp only [beq_iff_eq] at this
      intro hcc
      exact this (hcc ▸ rfl)
    · intro hid hhome h' hmem' hhid
      unfold removalBatch at hmem'
      dsimp only at hmem'
      rw [removalFold_eq_map] at hmem'
      obtain ⟨p, hp, hpe⟩ := List.mem_map.mp hmem'
      cases p with
      | hut h =>
        rw [removeAllRes_hut] at hpe
        have hh : hutEraseAll marked h = h' := by
          injection hpe
        have hhid2 : h.id = hid := by
          rw [← hhid, ← hh]
          exact ((hutEraseAll_shape marked h).1).symm
        have hnm : mr.id ∉ (hutEraseAll marked h).residents :=
          hutEraseAll_not_mem marked mr h hmr (by rw [hhid2]; exact hhome)
            (hres h hp)
        rw [hh] at hnm
        exact hnm
      | hole x y =>
        rw [removeAllRes_hole] at hpe
        exact absurd hpe (by simp)
      | farm x y =>
        rw [removeAllRes_farm] at hpe
        exact absurd hpe (by simp)
      | factory x y =>
        rw [removeAllRes_factory] at hpe
        exact absurd hpe (by simp)
      | tree x y =>
        rw [removeAllRes_tree] at hpe
        exact absurd hpe (by simp)

theorem hazard_consumption_amended_witness :
    (((meepleHoleStep ⟨420, 300, 0, 0, 8⟩ false 400 300 20 (1/60)).1.x - ((400 : ℤ) : ℚ)) ^ 2
        + ((meepleHoleStep ⟨420, 300, 0, 0, 8⟩ false 400 300 20 (1/60)).1.y
            - ((300 : ℤ) : ℚ)) ^ 2
        < ((HOLE_RADIUS : ℚ) * (4/5)) ^ 2 ∧
      (meepleHoleStep ⟨420, 300, 0, 0, 8⟩ false 400 300 20 (1/60)).2 = true) ∧
    ((∀ h : HutRec,
        PlaceableRec.hut h
          ∈ (World.mk [⟨1, 0, 0, some 7⟩] [PlaceableRec.hut ⟨7, 100, 100, [1], 4⟩]).placeables →
        h.residents.Nodup) ∧
      (∀ m ∈ (removalBatch
          (World.mk [⟨1, 0, 0, some 7⟩] [PlaceableRec.hut ⟨7, 100, 100, [1], 4⟩])
          [⟨1, 0, 0, some 7⟩]).meeples, m.id ≠ (⟨1, 0, 0, some 7⟩ : MeepleRec).id) ∧
      (∀ hid : Nat, (⟨1, 0, 0, some 7⟩ : MeepleRec).home = some hid →
        ∀ h' : HutRec, PlaceableRec.hut h' ∈ (removalBatch
          (World.mk [⟨1, 0, 0, some 7⟩] [PlaceableRec.hut ⟨7, 100, 100, [1], 4⟩])
          [⟨1, 0, 0, some 7⟩]).placeables →
          h'.id = hid → (⟨1, 0, 0, some 7⟩ : MeepleRec).id ∉ h'.residents)) := by
  have hstep : meepleHoleStep ⟨420, 300, 0, 0, 8⟩ false 400 300 20 (1/60)
      = (⟨843/2, 300, 0, 0, 8⟩, true) := by
    have hcol : colliderect (meepleColRect ⟨420, 300, 0, 0, 8⟩)
        (holeCollisionRect 400 300) = true := by
      norm_num [colliderect, meepleColRect, holeCollisionRect, truncZ,
        PyRect.rightEdge, PyRect.bottomEdge, HOLE_RADIUS]
    unfold meepleHoleStep
    dsimp only
    rw [hcol]
    norm_num [holeCollisionRect, PyRect.centerx, PyRect.centery, HOLE_RADIUS,
      OBSTACLE_PUSH_FORCE, PUSH_SCALE, MState.mk.injEq, Prod.mk.injEq]
  have hin : ((meepleHoleStep ⟨420, 300, 0, 0, 8⟩ false 400 300 20 (1/60)).1.x
        - ((400 : ℤ) : ℚ)) ^ 2
      + ((meepleHoleStep ⟨420, 300, 0, 0, 8⟩ false 400 300 20 (1/60)).1.y
        - ((300 : ℤ) : ℚ)) ^ 2 < ((HOLE_RADIUS : ℚ) * (4/5)) ^ 2 := by
    rw [hstep]
    norm_num [HOLE_RADIUS]
  have hresnd : ∀ h : HutRec,
      PlaceableRec.hut h
        ∈ (World.mk [⟨1, 0, 0, some 7⟩] [PlaceableRec.hut ⟨7, 100, 100, [1], 4⟩]).placeables →
      h.residents.Nodup := by
    intro h hm
    rw [List.mem_singleton] at hm
    injection hm with he
    rw [he]
    exact List.nodup_singleton _
  have hB := (hazard_consumption_amended.2
    (World.mk [⟨1, 0, 0, some 7⟩] [PlaceableRec.hut ⟨7, 100, 100, [1], 4⟩])
    [⟨1, 0, 0, some 7⟩] hresnd ⟨1, 0, 0, some 7⟩ (List.mem_singleton_self _))
  exact ⟨⟨hin, hazard_consumption_amended.1 ⟨420, 300, 0, 0, 8⟩ false 400 300 20 (1/60) hin⟩,
    hresnd, hB.1, hB.2⟩

/-- C2 counterexample: the claim as stated — distance measured at the
start of the frame's collision resolution — is false.  A meeple 23 px
from a Hole's center (23 < 0.8 * 30 = 24) is first pushed 1.5 px away by
the rect-overlap branch of the same pass; the hole check then sees
distance 24.5 and does not mark it, so the agent survives the frame. -/
theorem hazard_consumption_counterexample :
    (0 : ℚ) ≤ 23 ∧
    (23 : ℚ) ^ 2 = ((423 : ℚ) - ((400 : ℤ) : ℚ)) ^ 2 + ((300 : ℚ) - ((300 : ℤ) : ℚ)) ^ 2 ∧
    ((423 : ℚ) - ((400 : ℤ) : ℚ)) ^ 2 + ((300 : ℚ) - ((300 : ℤ) : ℚ)) ^ 2
      < ((HOLE_RADIUS : ℚ) * (4/5)) ^ 2 ∧
    meepleHoleStep ⟨423, 300, 0, 0, 8⟩ false 400 300 23 (1/60) = (⟨849/2, 300, 0, 0, 8⟩, false) ∧
    removalBatch (World.mk [⟨1, 423, 300, none⟩] [PlaceableRec.hole 400 300]) []
      = World.mk [⟨1, 423, 300, none⟩] [PlaceableRec.hole 400 300] := by
  refine ⟨by norm_num, by norm_num, by norm_num [HOLE_RADIUS], ?_, ?_⟩
  · have hcol : colliderect (meepleColRect ⟨423, 300, 0, 0, 8⟩)
        (holeCollisionRect 400 300) = true := by
      norm_num [colliderect, meepleColRect, holeCollisionRect, truncZ,
        PyRect.rightEdge, PyRect.bottomEdge, HOLE_RADIUS]
    unfold meepleHoleStep
    dsimp only
    rw [hcol]
    norm_num [holeCollisionRect, PyRect.centerx, PyRect.centery, HOLE_RADIUS,
      OBSTACLE_PUSH_FORCE, PUSH_SCALE, MState.mk.injEq, Prod.mk.injEq]
  · unfold removalBatch
    simp [removeFromHome]

/-! ### C5: the night flip sends homed wandering agents home -/

/-- C5: a homed agent in the Wandering state stays Wandering under any
daytime update, and on the frame whose clock advance flips is_daytime
from true to false its update sets the state to GoingHome with the
target set to the home's anchor point (given that the agent is not
already inside the home-proximity threshold, in which case the same
update would carry it on to AtHome). -/
theorem night_flip_triggers_going_home
    (m : MeepleSM) (h : HutPos) (jit : ℚ × ℚ) (t dt mult : ℚ)
    (hhome : m.home = some h) (hph : m.phase = MPhase.wandering)
    (hfar : HOME_PROXIMITY_THRESHOLD ^ 2 ≤
      (m.x - ((hutAnchor h).1 : ℚ)) ^ 2 + (m.y - ((hutAnchor h).2 : ℚ)) ^ 2)
    (hday : isDaytimeOf t = true)
    (hflip : isDaytimeOf (cycleAdvance t dt mult) = false) :
    updateStateLogic m true jit = m ∧
    updateStateLogic m (isDaytimeOf (cycleAdvance t dt mult)) jit
      = { m with phase := MPhase.going_home,
                 target := some (((hutAnchor h).1 : ℚ), ((hutAnchor h).2 : ℚ)) } := by
  have hnear : ¬ ((m.x - ((hutAnchor h).1 : ℚ)) ^ 2 + (m.y - ((hutAnchor h).2 : ℚ)) ^ 2
      < HOME_PROXIMITY_THRESHOLD ^ 2) := not_lt.mpr hfar
  constructor
  · simp [updateStateLogic, hhome, hph]
  · rw [hflip]
    simp [updateStateLogic, hhome, hph, hnear]

theorem night_flip_triggers_going_home_witness :
    ((⟨0, 0, MPhase.wandering, none, some ⟨400, 300⟩⟩ : MeepleSM).home = some ⟨400, 300⟩ ∧
      (⟨0, 0, MPhase.wandering, none, some ⟨400, 300⟩⟩ : MeepleSM).phase = MPhase.wandering ∧
      HOME_PROXIMITY_THRESHOLD ^ 2 ≤
        (((⟨0, 0, MPhase.wandering, none, some ⟨400, 300⟩⟩ : MeepleSM).x
            - ((hutAnchor ⟨400, 300⟩).1 : ℚ)) ^ 2 +
          ((⟨0, 0, MPhase.wandering, none, some ⟨400, 300⟩⟩ : MeepleSM).y
            - ((hutAnchor ⟨400, 300⟩).2 : ℚ)) ^ 2) ∧
      isDaytimeOf 29 = true ∧ isDaytimeOf (cycleAdvance 29 2 1) = false) ∧
    (updateStateLogic ⟨0, 0, MPhase.wandering, none, some ⟨400, 300⟩⟩ true (5, 5)
        = ⟨0, 0, MPhase.wandering, none, some ⟨400, 300⟩⟩ ∧
      updateStateLogic ⟨0, 0, MPhase.wandering, none, some ⟨400, 300⟩⟩
          (isDaytimeOf (cycleAdvance 29 2 1)) (5, 5)
        = ⟨0, 0, MPhase.going_home,
            some (((hutAnchor ⟨400, 300⟩).1 : ℚ), ((hutAnchor ⟨400, 300⟩).2 : ℚ)),
            some ⟨400, 300⟩⟩) := by
  have hfar : HOME_PROXIMITY_THRESHOLD ^ 2 ≤
      (((⟨0, 0, MPhase.wandering, none, some ⟨400, 300⟩⟩ : MeepleSM).x
          - ((hutAnchor ⟨400, 300⟩).1 : ℚ)) ^ 2 +
        ((⟨0, 0, MPhase.wandering, none, some ⟨400, 300⟩⟩ : MeepleSM).y
          - ((hutAnchor ⟨400, 300⟩).2 : ℚ)) ^ 2) := by
    norm_num [HOME_PROXIMITY_THRESHOLD, hutAnchor, hutBaseRect, PyRect.centerx, PyRect.centery,
      HUT_BASE_W, HUT_BASE_H]
  have hday : isDaytimeOf 29 = true := by
    norm_num [isDaytimeOf, DAY_DURATION_SECONDS]
  have hflip : isDaytimeOf (cycleAdvance 29 2 1) = false := by
    norm_num [isDaytimeOf, cycleAdvance, pymod, DAY_DURATION_SECONDS, FULL_CYCLE_SECONDS,
      NIGHT_DURATION_SECONDS]
  exact ⟨⟨rfl, rfl, hfar, hday, hflip⟩,
    night_flip_triggers_going_home _ ⟨400, 300⟩ (5, 5) 29 2 1 rfl rfl hfar hday hflip⟩

/-! ### C6: overlapping agent pairs are pushed apart symmetrically -/

/-- C6: for a pair of agents whose collision circles overlap at
non-degenerate distance, one run of the pair-resolution step pushes the
two agents apart symmetrically along the separating axis so that their
distance becomes exactly the sum of the radii; with both radii 8 the
resulting squared distance is at least 16^2 (the spec scenario of two
radius-8 agents 10 apart ends at distance 16); (near-)zero-distance
pairs are skipped unchanged. -/
theorem colliding_pair_pushed_apart (m1 m2 : MState) (dist : ℚ)
    (hd0 : 0 ≤ dist)
    (hdsq : dist ^ 2 = (m1.x - m2.x) ^ 2 + (m1.y - m2.y) ^ 2) :
    ((m1.x - m2.x) ^ 2 + (m1.y - m2.y) ^ 2 ≤ 1/1000 →
      resolvePair m1 m2 dist = (m1, m2)) ∧
    ((m1.x - m2.x) ^ 2 + (m1.y - m2.y) ^ 2 < (m1.cr + m2.cr) ^ 2 →
     (m1.x - m2.x) ^ 2 + (m1.y - m2.y) ^ 2 > 1/1000 →
      ((resolvePair m1 m2 dist).1.x - (resolvePair m1 m2 dist).2.x) ^ 2 +
          ((resolvePair m1 m2 dist).1.y - (resolvePair m1 m2 dist).2.y) ^ 2
        = (m1.cr + m2.cr) ^ 2 ∧
      (resolvePair m1 m2 dist).1.x - m1.x = -((resolvePair m1 m2 dist).2.x - m2.x) ∧
      (resolvePair m1 m2 dist).1.y - m1.y = -((resolvePair m1 m2 dist).2.y - m2.y) ∧
      (m1.cr = 8 → m2.cr = 8 →
        16 ^ 2 ≤ ((resolvePair m1 m2 dist).1.x - (resolvePair m1 m2 dist).2.x) ^ 2 +
          ((resolvePair m1 m2 dist).1.y - (resolvePair m1 m2 dist).2.y) ^ 2)) := by
  constructor
  · intro hle
    unfold resolvePair
    rw [if_neg]
    rintro ⟨-, hgt⟩
    exact absurd hle (not_le.mpr hgt)
  · intro hlt hgt
    have hne : dist ≠ 0 := by
      intro h0
      rw [h0] at hdsq
      norm_num at hdsq
      rw [← hdsq] at hgt
      norm_num at hgt
    have hres : resolvePair m1 m2 dist =
        ({ m1 with
            x := m1.x + (m1.x - m2.x) / dist * ((m1.cr + m2.cr - dist) / 2)
              * COLLISION_PUSH_FORCE * PUSH_SCALE,
            y := m1.y + (m1.y - m2.y) / dist * ((m1.cr + m2.cr - dist) / 2)
              * COLLISION_PUSH_FORCE * PUSH_SCALE },
         { m2 with
            x := m2.x - (m1.x - m2.x) / dist * ((m1.cr + m2.cr - dist) / 2)
              * COLLISION_PUSH_FORCE * PUSH_SCALE,
            y := m2.y - (m1.y - m2.y) / dist * ((m1.cr + m2.cr - dist) / 2)
              * COLLISION_PUSH_FORCE * PUSH_SCALE }) := by
      unfold resolvePair
      rw [if_pos ⟨hlt, hgt⟩]
    rw [hres]
    dsimp only
    have hmain :
        ((m1.x + (m1.x - m2.x) / dist * ((m1.cr + m2.cr - dist) / 2)
            * COLLISION_PUSH_FORCE * PUSH_SCALE)
          - (m2.x - (m1.x - m2.x) / dist * ((m1.cr + m2.cr - dist) / 2)
            * COLLISION_PUSH_FORCE * PUSH_SCALE)) ^ 2 +
        ((m1.y + (m1.y - m2.y) / dist * ((m1.cr + m2.cr - dist) / 2)
            * COLLISION_PUSH_FORCE * PUSH_SCALE)
          - (m2.y - (m1.y - m2.y) / dist * ((m1.cr + m2.cr - dist) / 2)
            * COLLISION_PUSH_FORCE * PUSH_SCALE)) ^ 2
        = (m1.cr + m2.cr) ^ 2 := by
      unfold COLLISION_PUSH_FORCE PUSH_SCALE
      field_simp
      linear_combination (-4 : ℚ) * (m1.cr + m2.cr) ^ 2 * hdsq
    refine ⟨hmain, by ring, by ring, ?_⟩
    intro h81 h82
    rw [hmain, h81, h82]
    norm_num

theorem colliding_pair_pushed_apart_witness :
    ((0 : ℚ) ≤ 10 ∧
      (10 : ℚ) ^ 2 = ((0 : ℚ) - 10) ^ 2 + ((0 : ℚ) - 0) ^ 2 ∧
      ((0 : ℚ) - 10) ^ 2 + ((0 : ℚ) - 0) ^ 2 < ((8 : ℚ) + 8) ^ 2 ∧
      ((0 : ℚ) - 10) ^ 2 + ((0 : ℚ) - 0) ^ 2 > 1/1000) ∧
    (((resolvePair ⟨0, 0, 0, 0, 8⟩ ⟨10, 0, 0, 0, 8⟩ 10).1.x
        - (resolvePair ⟨0, 0, 0, 0, 8⟩ ⟨10, 0, 0, 0, 8⟩ 10).2.x) ^ 2 +
      ((resolvePair ⟨0, 0, 0, 0, 8⟩ ⟨10, 0, 0, 0, 8⟩ 10).1.y
        - (resolvePair ⟨0, 0, 0, 0, 8⟩ ⟨10, 0, 0, 0, 8⟩ 10).2.y) ^ 2
        = ((8 : ℚ) + 8) ^ 2 ∧
      16 ^ 2 ≤ ((resolvePair ⟨0, 0, 0, 0, 8⟩ ⟨10, 0, 0, 0, 8⟩ 10).1.x
        - (resolvePair ⟨0, 0, 0, 0, 8⟩ ⟨10, 0, 0, 0, 8⟩ 10).2.x) ^ 2 +
      ((resolvePair ⟨0, 0, 0, 0, 8⟩ ⟨10, 0, 0, 0, 8⟩ 10).1.y
        - (resolvePair ⟨0, 0, 0, 0, 8⟩ ⟨10, 0, 0, 0, 8⟩ 10).2.y) ^ 2) := by
  have h1 : (0 : ℚ) ≤ 10 := by norm_num
  have h2 : (10 : ℚ) ^ 2 = ((0 : ℚ) - 10) ^ 2 + ((0 : ℚ) - 0) ^ 2 := by norm_num
  have h3 : ((0 : ℚ) - 10) ^ 2 + ((0 : ℚ) - 0) ^ 2
      < (((⟨0, 0, 0, 0, 8⟩ : MState).cr + (⟨10, 0, 0, 0, 8⟩ : MState).cr)) ^ 2 := by
    norm_num
  have h4 : ((0 : ℚ) - 10) ^ 2 + ((0 : ℚ) - 0) ^ 2 > 1/1000 := by norm_num
  have hmain := (colliding_pair_pushed_apart ⟨0, 0, 0, 0, 8⟩ ⟨10, 0, 0, 0, 8⟩ 10 h1 h2).2 h3 h4
  exact ⟨⟨h1, h2, h3, h4⟩, hmain.1, hmain.2.2.2 rfl rfl⟩

theorem rain_effect_spec_witness :
    ((⟨true, 50⟩ : RainState).is_raining = true ∧ (49 : ℚ) ≤ (50 : ℚ) ∧
      (rainFrame ⟨true, 50⟩ 49 [1, 1]).1.is_raining = true ∧
      ∀ v ∈ (rainFrame ⟨true, 50⟩ 49 [1, 1]).2, v = RAIN_SPEED_MULTIPLIER) ∧
    ((51 : ℚ) > (50 : ℚ) ∧ (rainFrame ⟨true, 50⟩ 51 [1, 1]).1.is_raining = false ∧
      ∀ v ∈ (rainFrame ⟨true, 50⟩ 51 [1, 1]).2, v = 1) := by
  have h1 := (rain_effect_spec ⟨true, 50⟩ 49 [1, 1]).1 rfl (by norm_num)
  have h2 := (rain_effect_spec ⟨true, 50⟩ 51 [1, 1]).2.1 rfl (by norm_num)
  exact ⟨⟨rfl, by norm_num, h1.1, h1.2⟩, ⟨by norm_num, h2.1, h2.2⟩⟩

end Meeples
